import Mathlib

/-!
Verification development for the fiber-based UI reconciliation engine of
`study-mini-react`, final snapshot `src/step8-hooks/2-2.jsx`.

The JavaScript source is shallowly embedded:
* plain JS values that occur as props or event handlers become `JsValue`
  (functions are identified by an id, mirroring JS reference identity);
* description nodes (`createElement` results) become `Element`;
* fibers become either pure trees (`FTree`, used for the reconciler and the
  recursive build of one render generation) or arena nodes addressed by `Nat`
  ids (`AFiber`, used for the scheduler machine where `parent`/`child`/
  `sibling`/`alternate` pointers and in-place mutation matter);
* DOM nodes become entries of a `DomNode` arena; the container is id 0;
* JS `TypeError`s (such as writing `prevSibling.sibling` when `prevSibling`
  is `null`) become `Except` errors.
-/

/-- A JavaScript value as it occurs in props: strings, numbers, booleans,
event-handler functions (identified by an id, standing for JS object
identity), and `null`.  Absent keys are modelled by `Option` lookups. -/
inductive JsValue where
  | str (s : String)
  | num (n : Int)
  | bool (b : Bool)
  | fn (id : Nat)
  | null
  deriving DecidableEq, Repr

/-- JS truthiness of a value (`undefined`, i.e. an absent key, is handled by
`Option.elim` at the use sites). -/
def JsValue.truthy : JsValue → Bool
  | .str s => s ≠ ""
  | .num n => n ≠ 0
  | .bool b => b
  | .fn _ => true
  | .null => false

/-- Truthiness of a possibly-absent value: `undefined` is falsy. -/
def truthyOpt : Option JsValue → Bool
  | none => false
  | some v => v.truthy

/-- The `type` field of an element or fiber: a host tag string (including
the reserved `TEXT_ELEMENT`) or a component function, identified by an id
(JS compares component types by function identity). -/
inductive FiberType where
  | str (s : String)
  | comp (cid : Nat)
  deriving DecidableEq, Repr

/-- The reserved text kind, `TEXT_ELEMENT` in the source. -/
def textType : FiberType := .str "TEXT_ELEMENT"

/-- `effectTag` values assigned during reconciliation. -/
inductive ETag where
  | placement
  | update
  | deletion
  deriving DecidableEq, Repr

mutual
/-- A description node (`createElement` result): `type` together with its
props.  The `children` entry of the props object is kept as a separate field;
a `none` child is a JS `null` kept verbatim in the children array
(`typeof null === 'object'`, so `createElement` does not wrap it). -/
inductive Element where
  | mk (type : FiberType) (props : FProps)
  deriving Repr

/-- The props object of an element or fiber: the non-`children` entries as an
association list in insertion order (`Object.keys` order), plus the
`children` array. -/
inductive FProps where
  | mk (attrs : List (String × JsValue)) (children : List (Option Element))
  deriving Repr
end

def Element.type : Element → FiberType
  | .mk t _ => t

def Element.props : Element → FProps
  | .mk _ p => p

def FProps.attrs : FProps → List (String × JsValue)
  | .mk a _ => a

def FProps.children : FProps → List (Option Element)
  | .mk _ c => c

/-- A child argument of `createElement` before normalization: an object child
(kept as is), the literal `null` (also `typeof 'object'`, kept as is), or a
scalar (wrapped into a text element). -/
inductive JChild where
  | node (e : Element)
  | jnull
  | scalar (v : JsValue)
  deriving Repr

/-- `createTextElement(text)` from the source: wraps a scalar into a
`TEXT_ELEMENT` description with the scalar as `nodeValue` and no children. -/
def createTextElement (text : JsValue) : Element :=
  .mk textType (.mk [("nodeValue", text)] [])

/-- `createElement(type, props, ...children)` from the source: merges the
props with a `children` entry mapping each child through
`typeof child === 'object' ? child : createTextElement(child)`.
`null` has `typeof 'object'`, so it is kept un-wrapped. -/
def createElement (type : FiberType) (props : List (String × JsValue))
    (children : List JChild) : Element :=
  .mk type (.mk props (children.map fun c =>
    match c with
    | .node e => some e
    | .jnull => none
    | .scalar v => some (createTextElement v)))

/-! ## Host DOM model

A DOM node records whether it is a text node, its tag, its plain properties,
its attached event listeners (JS `addEventListener` ignores a duplicate
(type, listener) pair; `removeEventListener` detaches the matching pair), and
the ids of its child nodes in order.  Nodes live in an arena `List DomNode`;
the render container is id 0. -/

structure DomNode where
  isText : Bool
  tag : String
  props : List (String × JsValue)
  listeners : List (String × JsValue)
  children : List Nat
  deriving DecidableEq, Repr

/-- First-match lookup in a props association list (`props[key]`,
`none` = `undefined`). -/
def lookupProp (ps : List (String × JsValue)) (k : String) : Option JsValue :=
  (ps.find? (fun p => p.1 = k)).map Prod.snd

/-- Set `dom[name] = v` (overwrite the entry, or append it). -/
def setProp (ps : List (String × JsValue)) (k : String) (v : JsValue) :
    List (String × JsValue) :=
  if (ps.find? (fun p => p.1 = k)).isSome then
    ps.map fun p => if p.1 = k then (k, v) else p
  else ps ++ [(k, v)]

/-- `dom.addEventListener(t, f)`: a no-op if the same (type, listener) pair is
already attached, otherwise appends it. -/
def addListener (ls : List (String × JsValue)) (t : String) (f : JsValue) :
    List (String × JsValue) :=
  if (t, f) ∈ ls then ls else ls ++ [(t, f)]

/-- `dom.removeEventListener(t, f)`: detaches the matching pair (a no-op if it
is not attached). -/
def removeListener (ls : List (String × JsValue)) (t : String) (f : JsValue) :
    List (String × JsValue) :=
  ls.erase (t, f)

/-- `isEvent` from the source: a key names an event binding iff it starts
with `on` (`key.startsWith('on')`, expressed on the character list so that
it evaluates inside the kernel). -/
def isEvent (k : String) : Bool := k.data.take 2 = ['o', 'n']

/-- `isProperty` from the source: every key other than `children` that is not
an event binding. -/
def isProperty (k : String) : Bool := k ≠ "children" && !isEvent k

/-- `isGone(prev, next)(key)` from the source: `prev[key] && !next[key]`
(truthiness of the values, not key presence). -/
def isGone (prev next : List (String × JsValue)) (k : String) : Bool :=
  truthyOpt (lookupProp prev k) && !truthyOpt (lookupProp next k)

/-- `isNew(prev, next)(key)` from the source: `prev[key] !== next[key]`. -/
def isNew (prev next : List (String × JsValue)) (k : String) : Bool :=
  lookupProp prev k ≠ lookupProp next k

/-- `onClick` → `click`: the source computes
`name.toLowerCase().substring(2)` (expressed on the character list so that
it evaluates inside the kernel). -/
def eventTypeOf (name : String) : String :=
  String.mk ((name.data.map Char.toLower).drop 2)

/-- `updateDom(dom, prevProps, nextProps)` from the source, acting on the
non-`children` prop lists (the `children` key is excluded by both `isEvent`
and `isProperty`, so carrying it would never reach the DOM node): remove old
events, add new events, remove old properties, set new properties — in that
order. -/
def updateDom (d : DomNode) (prevProps nextProps : List (String × JsValue)) :
    DomNode :=
  -- remove old events
  let ls := (((prevProps.map Prod.fst).filter isEvent).filter
      (isGone prevProps nextProps)).foldl
    (fun ls name =>
      match lookupProp prevProps name with
      | some f => removeListener ls (eventTypeOf name) f
      | none => ls) d.listeners
  -- add new events
  let ls := (((nextProps.map Prod.fst).filter isEvent).filter
      (isNew prevProps nextProps)).foldl
    (fun ls name =>
      match lookupProp nextProps name with
      | some f => addListener ls (eventTypeOf name) f
      | none => ls) ls
  -- remove old properties
  let ps := (((prevProps.map Prod.fst).filter isProperty).filter
      (isGone prevProps nextProps)).foldl
    (fun ps name => setProp ps name (.str "")) d.props
  -- set new properties
  let ps := (((nextProps.map Prod.fst).filter isProperty).filter
      (isNew prevProps nextProps)).foldl
    (fun ps name =>
      match lookupProp nextProps name with
      | some v => setProp ps name v
      | none => ps) ps
  { d with listeners := ls, props := ps }

/-! ## Fibers as pure trees

`FTree` is one render generation's fiber viewed as a pure value: the
`child`/`sibling` links of the source become the ordered `children` list, the
`alternate` reference becomes an embedded snapshot of the matching old fiber
(the old tree is not structurally mutated during a render pass), and `dom` is
the id of the owned host node in the DOM arena. -/

/-- A local-state slot of this snapshot: only the state value (the pending
queue appears only in the later snapshot that adds the updater). -/
structure Hook where
  state : JsValue
  deriving DecidableEq, Repr

inductive FTree where
  | mk (type : FiberType) (props : FProps) (dom : Option Nat)
       (alternate : Option FTree) (effectTag : Option ETag)
       (hooks : Option (List Hook)) (children : List FTree)
  deriving Repr

def FTree.type : FTree → FiberType
  | .mk t _ _ _ _ _ _ => t

def FTree.props : FTree → FProps
  | .mk _ p _ _ _ _ _ => p

def FTree.dom : FTree → Option Nat
  | .mk _ _ d _ _ _ _ => d

def FTree.alternate : FTree → Option FTree
  | .mk _ _ _ a _ _ _ => a

def FTree.effectTag : FTree → Option ETag
  | .mk _ _ _ _ e _ _ => e

def FTree.hooks : FTree → Option (List Hook)
  | .mk _ _ _ _ _ h _ => h

def FTree.children : FTree → List FTree
  | .mk _ _ _ _ _ _ c => c

/-- `oldFiber.effectTag = 'DELETION'` (the in-place tagging, as the value the
mutated old fiber takes). -/
def FTree.withTag : FTree → ETag → FTree
  | .mk t p d a _ h c, tg => .mk t p d a (some tg) h c

/-- The reconciler's `UPDATE` case: a new fiber with the new description's
type and props, reusing the old fiber's `dom`, with `alternate` the old
fiber. -/
def updateFiberOf (el : Element) (o : FTree) : FTree :=
  .mk el.type el.props o.dom (some o) (some .update) none []

/-- The reconciler's `PLACEMENT` case: a new fiber with `dom = null` and
`alternate = null`. -/
def placementFiberOf (el : Element) : FTree :=
  .mk el.type el.props none none (some .placement) none []

/-- The JS error raised by the reconciler's chain-linking step when
`prevSibling` is `null` (TypeError: cannot set `sibling` of `null`), and a
fuel sentinel for the loop bound (never hit when called through
`reconcileChildren`, which supplies sufficient fuel). -/
inductive RError where
  | nullSibling
  | fuelOut
  deriving DecidableEq, Repr

/-- One render generation's reconciliation loop
(`reconcileChildren(fiber, elements)` of the source), with the mutation made
explicit: `elems` is the remaining slice of the new-description array (an
entry `none` is a JS `null` child kept by `createElement`; indices past the
end read as `undefined`, also falsy), `olds` is the remaining old-fiber
sibling chain starting at `fiber.alternate?.child`, `first` states that
`index === 0`, and `prevNil` states that `prevSibling === null`.  Returns
the linked new child chain and the deletion set, or the JS `TypeError`
raised when the linking step writes `prevSibling.sibling` with `prevSibling`
null.  The fuel argument bounds the loop; `reconcileChildren` supplies one
unit per iteration. -/
def reconcileChildrenAux : Nat → List (Option Element) → List FTree →
    Bool → Bool → Except RError (List FTree × List FTree)
  | 0, elems, olds, _, _ =>
    if elems.isEmpty && olds.isEmpty then .ok ([], []) else .error .fuelOut
  | _ + 1, [], [], _, _ => .ok ([], [])
  | fuel + 1, elems, olds, first, prevNil =>
    -- loop body: `element = elements[index]`, `oldFiber` the chain head
    let element : Option Element := elems.head?.join
    let oldFiber : Option FTree := olds.head?
    -- `oldFiber && element && oldFiber.type === element.type`
    let sameType : Bool :=
      match oldFiber, element with
      | some o, some el => decide (o.type = el.type)
      | _, _ => false
    let newFiber : Option FTree :=
      if sameType then
        match oldFiber, element with
        | some o, some el => some (updateFiberOf el o)
        | _, _ => none
      else
        match element with
        | some el => some (placementFiberOf el)
        | none => none
    -- `else if (oldFiber)`: tag DELETION in place and record it
    let dels : List FTree :=
      if sameType then []
      else if element.isSome then []
      else
        match oldFiber with
        | some o => [o.withTag .deletion]
        | none => []
    -- linking: `fiber.child = newFiber` at index 0, otherwise
    -- `prevSibling.sibling = newFiber` (TypeError when prevSibling is null)
    if !first && prevNil then .error .nullSibling
    else do
      let (chain, ds) ←
        reconcileChildrenAux fuel elems.tail olds.tail false newFiber.isNone
      .ok (newFiber.toList ++ chain, dels ++ ds)

/-- `reconcileChildren` of the source, as a function of the old child chain
(`fiber.alternate?.child` and its siblings) and the new description array;
the result is the new `child`/`sibling` chain of the parent fiber and the
fibers pushed onto `deletions`. -/
def reconcileChildren (olds : List FTree) (elems : List (Option Element)) :
    Except RError (List FTree × List FTree) :=
  reconcileChildrenAux (elems.length + olds.length) elems olds true true

/-! ## Per-index classification of the reconciler -/

/-- The new fiber the loop body produces at one position, as a function of
the old fiber at that index (`none` when the old chain is exhausted) and the
description at that index (`none` both for a `null` entry and past the end
of the array, which read as falsy). -/
def classifyNew (o? : Option FTree) (e? : Option Element) : Option FTree :=
  match o?, e? with
  | some o, some el =>
      if o.type = el.type then some (updateFiberOf el o)
      else some (placementFiberOf el)
  | none, some el => some (placementFiberOf el)
  | _, none => none

/-- The deletion the loop body records at one position: only when an old
fiber is present and the description at that index is falsy. -/
def classifyDel (o? : Option FTree) (e? : Option Element) : Option FTree :=
  match o?, e? with
  | some o, none => some (o.withTag .deletion)
  | _, _ => none

/-- The fully linked child chain, described positionally. -/
def classChain (olds : List FTree) (elems : List (Option Element)) :
    List FTree :=
  (List.range (max elems.length olds.length)).filterMap
    (fun k => classifyNew olds[k]? (elems[k]?.join))

/-- The recorded deletion set, described positionally. -/
def classDels (olds : List FTree) (elems : List (Option Element)) :
    List FTree :=
  (List.range (max elems.length olds.length)).filterMap
    (fun k => classifyDel olds[k]? (elems[k]?.join))

theorem FTree.withTag_effectTag (o : FTree) (t : ETag) :
    (o.withTag t).effectTag = some t := by
  cases o <;> rfl

theorem classChain_step (olds : List FTree) (elems : List (Option Element))
    (h : ¬(elems = [] ∧ olds = [])) :
    classChain olds elems =
      (classifyNew olds[0]? (elems[0]?.join)).toList ++
        classChain olds.tail elems.tail := by
  have hmax : max elems.length olds.length =
      max elems.tail.length olds.tail.length + 1 := by
    rcases elems with _ | ⟨e, es⟩ <;> rcases olds with _ | ⟨o, os⟩ <;>
      simp_all [Nat.succ_max_succ]
  unfold classChain
  rw [hmax, List.range_succ_eq_map, List.filterMap_cons, List.filterMap_map]
  rcases hco : classifyNew olds[0]? (elems[0]?.join) with _ | f <;>
    · simp [hco, Function.comp]
      rfl

theorem classDels_step (olds : List FTree) (elems : List (Option Element))
    (h : ¬(elems = [] ∧ olds = [])) :
    classDels olds elems =
      (classifyDel olds[0]? (elems[0]?.join)).toList ++
        classDels olds.tail elems.tail := by
  have hmax : max elems.length olds.length =
      max elems.tail.length olds.tail.length + 1 := by
    rcases elems with _ | ⟨e, es⟩ <;> rcases olds with _ | ⟨o, os⟩ <;>
      simp_all [Nat.succ_max_succ]
  unfold classDels
  rw [hmax, List.range_succ_eq_map, List.filterMap_cons, List.filterMap_map]
  rcases hco : classifyDel olds[0]? (elems[0]?.join) with _ | f <;>
    · simp [hco, Function.comp]
      rfl

theorem classChain_nil : classChain [] [] = [] := by
  simp [classChain]

theorem classDels_nil : classDels [] [] = [] := by
  simp [classDels]

/-- One iteration of the reconciliation loop, expressed through the
per-index classification: the body either raises the `prevSibling` TypeError
or prepends the classified new fiber and deletion of the head position. -/
theorem reconcileChildrenAux_step (fuel : Nat) (elems : List (Option Element))
    (olds : List FTree) (first prevNil : Bool)
    (h : ¬(elems = [] ∧ olds = [])) :
    reconcileChildrenAux (fuel + 1) elems olds first prevNil =
      if !first && prevNil then .error .nullSibling
      else
        match reconcileChildrenAux fuel elems.tail olds.tail false
            (classifyNew olds[0]? (elems[0]?.join)).isNone with
        | .error e => .error e
        | .ok (c, d) =>
            .ok ((classifyNew olds[0]? (elems[0]?.join)).toList ++ c,
                 (classifyDel olds[0]? (elems[0]?.join)).toList ++ d) := by
  rcases elems with _ | ⟨e, es⟩
  · rcases olds with _ | ⟨o, os⟩
    · exact absurd ⟨rfl, rfl⟩ h
    · by_cases hb : (!first && prevNil) = true <;>
        · simp only [reconcileChildrenAux, hb, classifyNew, classifyDel,
            List.getElem?_nil, List.getElem?_cons_zero, Option.join,
            List.head?_nil, List.head?_cons, List.tail_nil, List.tail_cons]
          rcases hrec : reconcileChildrenAux fuel [] os false true with e' | ⟨c, d⟩ <;>
            simp [hrec, FTree.withTag, Bind.bind, Except.bind]
  · rcases e with _ | el
    · -- head element is a JS null: falsy
      by_cases hb : (!first && prevNil) = true
      · rcases olds with _ | ⟨o, os⟩ <;>
          simp [reconcileChildrenAux, hb]
      · rcases olds with _ | ⟨o, os⟩
        · simp only [reconcileChildrenAux, hb, classifyNew, classifyDel,
            List.getElem?_nil, List.getElem?_cons_zero, Option.join,
            List.head?_nil, List.head?_cons, List.tail_nil, List.tail_cons]
          rcases hrec : reconcileChildrenAux fuel es [] false true with e' | ⟨c, d⟩ <;>
            simp [hrec, Bind.bind, Except.bind]
        · simp only [reconcileChildrenAux, hb, classifyNew, classifyDel,
            List.getElem?_nil, List.getElem?_cons_zero, Option.join,
            List.head?_nil, List.head?_cons, List.tail_nil, List.tail_cons]
          rcases hrec : reconcileChildrenAux fuel es os false true with e' | ⟨c, d⟩ <;>
            simp [hrec, Bind.bind, Except.bind]
    · -- head element is a real description
      by_cases hb : (!first && prevNil) = true
      · rcases olds with _ | ⟨o, os⟩ <;>
          simp [reconcileChildrenAux, hb]
      · rcases olds with _ | ⟨o, os⟩
        · simp only [reconcileChildrenAux, hb, classifyNew, classifyDel,
            List.getElem?_nil, List.getElem?_cons_zero, Option.join,
            List.head?_nil, List.head?_cons, List.tail_nil, List.tail_cons]
          rcases hrec : reconcileChildrenAux fuel es [] false false with e' | ⟨c, d⟩ <;>
            simp [hrec, Bind.bind, Except.bind]
        · by_cases hty : o.type = el.type <;>
            · simp only [reconcileChildrenAux, hb, classifyNew, classifyDel,
                List.getElem?_cons_zero, Option.join,
                List.head?_cons, List.tail_cons, hty]
              rcases hrec : reconcileChildrenAux fuel es os false false with e' | ⟨c, d⟩ <;>
                simp [hrec, hty, Bind.bind, Except.bind]

/-- A successful run of the reconciliation loop produces exactly the
positionally classified chain and deletion set. -/
theorem reconcileChildrenAux_ok_char (fuel : Nat) :
    ∀ (elems : List (Option Element)) (olds : List FTree)
      (first prevNil : Bool) (chain dels : List FTree),
      reconcileChildrenAux fuel elems olds first prevNil =
        .ok (chain, dels) →
      chain = classChain olds elems ∧ dels = classDels olds elems := by
  induction fuel with
  | zero =>
    intro elems olds first prevNil chain dels h
    rcases elems with _ | ⟨e, es⟩ <;> rcases olds with _ | ⟨o, os⟩ <;>
      simp [reconcileChildrenAux] at h
    obtain ⟨h1, h2⟩ := h
    subst h1; subst h2
    simp [classChain_nil, classDels_nil]
  | succ fuel ih =>
    intro elems olds first prevNil chain dels h
    by_cases hnil : elems = [] ∧ olds = []
    · rcases hnil with ⟨h1, h2⟩
      subst h1; subst h2
      simp [reconcileChildrenAux] at h
      obtain ⟨h1, h2⟩ := h
      subst h1; subst h2
      simp [classChain_nil, classDels_nil]
    · rw [reconcileChildrenAux_step fuel elems olds first prevNil hnil] at h
      by_cases hb : (!first && prevNil) = true
      · simp [hb] at h
      · simp only [hb, Bool.false_eq_true, if_false] at h
        rcases hrec : reconcileChildrenAux fuel elems.tail olds.tail false
            (classifyNew olds[0]? (elems[0]?.join)).isNone with e' | ⟨c, d⟩
        · rw [hrec] at h; exact absurd h (by simp)
        · rw [hrec] at h
          simp only [Except.ok.injEq, Prod.mk.injEq] at h
          obtain ⟨hc, hd⟩ := h
          obtain ⟨hc', hd'⟩ := ih _ _ _ _ _ _ hrec
          subst hc; subst hd
          constructor
          · rw [classChain_step olds elems hnil, hc']
          · rw [classDels_step olds elems hnil, hd']

theorem updateFiberOf_effectTag (el : Element) (o : FTree) :
    (updateFiberOf el o).effectTag = some .update := rfl

theorem placementFiberOf_effectTag (el : Element) :
    (placementFiberOf el).effectTag = some .placement := rfl

theorem mem_classChain_tag (olds : List FTree) (elems : List (Option Element))
    (f : FTree) (hf : f ∈ classChain olds elems) :
    f.effectTag = some .update ∨ f.effectTag = some .placement := by
  unfold classChain at hf
  obtain ⟨k, _, hk⟩ := List.mem_filterMap.mp hf
  rcases hko : olds[k]? with _ | o <;> rcases hke : elems[k]?.join with _ | el <;>
    simp only [classifyNew, hko, hke] at hk
  · exact absurd hk (by simp)
  · right; rw [← Option.some_inj.mp hk]; rfl
  · exact absurd hk (by simp)
  · by_cases hty : o.type = el.type <;> simp only [hty, if_true, if_false] at hk
    · left; rw [← Option.some_inj.mp hk]; rfl
    · right; rw [← Option.some_inj.mp hk]; rfl

/-- **C1**: per-position classification of `reconcileChildren`.  For a call
that completes (the linking step can raise a TypeError, see the C10
theorem), at every index `k` of the lock-step walk over the old child chain
and the new description array: if both are present with the same `kind`,
the produced chain contains the `UPDATE` fiber built from the new
description that reuses the old unit's host node (`updateFiberOf` sets
`dom := o.dom`) and has `alternate` the old unit; if a (non-null)
description is present but the old unit is missing or of a different kind,
the chain contains the `PLACEMENT` fiber with null `dom` and null
`alternate`; if only the old unit remains (the description at the index is
absent, which in JS also covers a kept `null` child), the old unit tagged
`DELETION` is recorded in the deletion set and is not linked into the new
chain (every chain member carries an `UPDATE` or `PLACEMENT` tag). -/
theorem reconcileChildren_classification (olds : List FTree)
    (elems : List (Option Element)) (chain dels : List FTree)
    (h : reconcileChildren olds elems = .ok (chain, dels)) :
    (∀ (k : Nat) (o : FTree) (el : Element), olds[k]? = some o →
        elems[k]?.join = some el →
        o.type = el.type → updateFiberOf el o ∈ chain) ∧
    (∀ (k : Nat) (el : Element), elems[k]?.join = some el →
        (olds[k]? = none ∨
          ∀ (o : FTree), olds[k]? = some o → o.type ≠ el.type) →
        placementFiberOf el ∈ chain) ∧
    (∀ (k : Nat) (o : FTree), olds[k]? = some o → elems[k]?.join = none →
        o.withTag .deletion ∈ dels ∧ o.withTag .deletion ∉ chain) ∧
    (∀ f ∈ chain,
        f.effectTag = some .update ∨ f.effectTag = some .placement) := by
  obtain ⟨hc, hd⟩ := reconcileChildrenAux_ok_char _ _ _ _ _ _ _ h
  subst hc; subst hd
  refine ⟨?_, ?_, ?_, mem_classChain_tag olds elems⟩
  · intro k o el ho he hty
    refine List.mem_filterMap.mpr ⟨k, ?_, ?_⟩
    · refine List.mem_range.mpr ?_
      calc k < olds.length := (List.getElem?_eq_some.mp ho).1
        _ ≤ max elems.length olds.length := le_max_right _ _
    · have he' : (elems[k]?.bind fun a => a) = some el := he
      simp [classifyNew, ho, he', hty]
  · intro k el he ho
    refine List.mem_filterMap.mpr ⟨k, ?_, ?_⟩
    · refine List.mem_range.mpr ?_
      have : k < elems.length := by
        rcases hke : elems[k]? with _ | e'
        · rw [hke] at he; simp at he
        · exact (List.getElem?_eq_some.mp hke).1
      calc k < elems.length := this
        _ ≤ max elems.length olds.length := le_max_left _ _
    · have he' : (elems[k]?.bind fun a => a) = some el := he
      rcases ho with ho | ho
      · simp [classifyNew, ho, he']
      · rcases hko : olds[k]? with _ | o
        · simp [classifyNew, hko, he']
        · simp [classifyNew, hko, he', ho o hko]
  · intro k o ho he
    constructor
    · refine List.mem_filterMap.mpr ⟨k, ?_, ?_⟩
      · refine List.mem_range.mpr ?_
        calc k < olds.length := (List.getElem?_eq_some.mp ho).1
          _ ≤ max elems.length olds.length := le_max_right _ _
      · have he' : (elems[k]?.bind fun a => a) = none := he
        simp [classifyDel, ho, he']
    · intro hmem
      rcases mem_classChain_tag olds elems _ hmem with ht | ht <;>
        · rw [FTree.withTag_effectTag] at ht
          exact absurd (Option.some_inj.mp ht) (by intro hx; cases hx)

/-- Witness for the C1 theorem: a three-position reconciliation exercising
all three classifications (same kind, differing kind, exhausted new list). -/
theorem reconcileChildren_classification_witness :
    reconcileChildren
        [FTree.mk (.str "div") (.mk [] []) (some 5) none none none [],
         FTree.mk (.str "span") (.mk [] []) (some 6) none none none [],
         FTree.mk (.str "p") (.mk [] []) (some 7) none none none []]
        [some (Element.mk (.str "div") (.mk [("id", .str "a")] [])),
         some (Element.mk (.str "h1") (.mk [] []))] =
      .ok ([updateFiberOf (Element.mk (.str "div") (.mk [("id", .str "a")] []))
              (FTree.mk (.str "div") (.mk [] []) (some 5) none none none []),
            placementFiberOf (Element.mk (.str "h1") (.mk [] []))],
          [(FTree.mk (.str "p") (.mk [] []) (some 7) none none none []).withTag
              .deletion]) ∧
    updateFiberOf (Element.mk (.str "div") (.mk [("id", .str "a")] []))
        (FTree.mk (.str "div") (.mk [] []) (some 5) none none none []) ∈
      [updateFiberOf (Element.mk (.str "div") (.mk [("id", .str "a")] []))
          (FTree.mk (.str "div") (.mk [] []) (some 5) none none none []),
       placementFiberOf (Element.mk (.str "h1") (.mk [] []))] ∧
    (FTree.mk (.str "p") (.mk [] []) (some 7) none none none []).withTag
        .deletion ∈
      [(FTree.mk (.str "p") (.mk [] []) (some 7) none none none []).withTag
          .deletion] := by
  have H := reconcileChildren_classification
    [FTree.mk (.str "div") (.mk [] []) (some 5) none none none [],
     FTree.mk (.str "span") (.mk [] []) (some 6) none none none [],
     FTree.mk (.str "p") (.mk [] []) (some 7) none none none []]
    [some (Element.mk (.str "div") (.mk [("id", .str "a")] [])),
     some (Element.mk (.str "h1") (.mk [] []))]
    [updateFiberOf (Element.mk (.str "div") (.mk [("id", .str "a")] []))
        (FTree.mk (.str "div") (.mk [] []) (some 5) none none none []),
     placementFiberOf (Element.mk (.str "h1") (.mk [] []))]
    [(FTree.mk (.str "p") (.mk [] []) (some 7) none none none []).withTag
        .deletion] (by rfl)
  refine ⟨rfl, ?_, ?_⟩
  · exact H.1 0
      (FTree.mk (.str "div") (.mk [] []) (some 5) none none none [])
      (Element.mk (.str "div") (.mk [("id", .str "a")] [])) rfl rfl rfl
  · exact (H.2.2.1 2
      (FTree.mk (.str "p") (.mk [] []) (some 7) none none none []) rfl rfl).1

theorem optJoin_some {α : Type} (a : Option α) : (some a).join = a := rfl

theorem classifyNew_isSome_of_elem (o? : Option FTree) (el : Element) :
    (classifyNew o? (some el)).isSome := by
  rcases o? with _ | o
  · rfl
  · unfold classifyNew
    by_cases hty : o.type = el.type <;> simp [hty]

theorem classifyNew_none_elem (o? : Option FTree) :
    classifyNew o? none = none := by
  rcases o? with _ | o <;> rfl

/-- With a falsy description entry at a non-final index, the loop writes
`prevSibling.sibling` with `prevSibling` null on the following iteration. -/
theorem reconcileChildrenAux_null_mid_error :
    ∀ (k fuel : Nat) (elems : List (Option Element)) (olds : List FTree)
      (first prevNil : Bool),
      elems.length + olds.length ≤ fuel →
      elems[k]? = some none → k + 1 < elems.length →
      reconcileChildrenAux fuel elems olds first prevNil =
        .error .nullSibling := by
  intro k
  induction k with
  | zero =>
    intro fuel elems olds first prevNil hfuel hk hlt
    rcases elems with _ | ⟨e, es⟩
    · simp at hk
    · have he : e = none := by simpa using hk
      subst he
      have hes : es ≠ [] := by
        intro hx; subst hx; simp at hlt
      rcases fuel with _ | f
      · simp at hfuel
      rw [reconcileChildrenAux_step f (none :: es) olds first prevNil
        (by simp)]
      by_cases hb : (!first && prevNil) = true
      · simp [hb]
      · simp only [hb, Bool.false_eq_true, if_false]
        rcases f with _ | f'
        · exfalso
          have : es.length + olds.tail.length ≤ 0 := by
            rcases olds with _ | ⟨o, os⟩ <;> simp_all <;> omega
          rcases es with _ | _
          · exact hes rfl
          · simp at this
        · simp only [List.tail_cons, List.getElem?_cons_zero, optJoin_some,
            classifyNew_none_elem, Option.isNone_none]
          rw [reconcileChildrenAux_step f' es olds.tail false true
            (by exact fun hx => hes hx.1)]
          simp
  | succ k ih =>
    intro fuel elems olds first prevNil hfuel hk hlt
    rcases elems with _ | ⟨e, es⟩
    · simp at hk
    · rcases fuel with _ | f
      · simp at hfuel
      rw [reconcileChildrenAux_step f (e :: es) olds first prevNil (by simp)]
      by_cases hb : (!first && prevNil) = true
      · simp [hb]
      · simp only [hb, Bool.false_eq_true, if_false]
        have hrec := ih f es olds.tail false
          (classifyNew olds[0]? e).isNone
          (by
            rcases olds with _ | ⟨o, os⟩ <;> simp_all <;> omega)
          (by simpa using hk) (by simpa using hlt)
        simp only [List.tail_cons, List.getElem?_cons_zero, optJoin_some]
        rw [hrec]

theorem reconcileChildrenAux_nil_nil (f : Nat) (first prevNil : Bool) :
    reconcileChildrenAux f [] [] first prevNil = .ok ([], []) := by
  cases f <;> rfl

set_option maxHeartbeats 1000000 in
/-- With every non-final description entry truthy and no surplus old fibers,
the loop completes: `prevSibling` is only ever null at the final iteration. -/
theorem reconcileChildrenAux_ok_of_good :
    ∀ (fuel : Nat) (elems : List (Option Element)) (olds : List FTree)
      (first prevNil : Bool),
      elems.length + olds.length ≤ fuel →
      (∀ k, k + 1 < elems.length → (elems[k]?.join).isSome) →
      olds.length ≤ elems.length →
      (first = true ∨ prevNil = false) →
      ∃ r, reconcileChildrenAux fuel elems olds first prevNil = .ok r := by
  intro fuel
  induction fuel with
  | zero =>
    intro elems olds first prevNil hfuel hgood holds hcond
    have h1 : elems = [] := by
      rcases elems with _ | _
      · rfl
      · simp at hfuel
    subst h1
    have h2 : olds = [] := by simpa using holds
    subst h2
    exact ⟨([], []), rfl⟩
  | succ f ih =>
    intro elems olds first prevNil hfuel hgood holds hcond
    rcases elems with _ | ⟨e, es⟩
    · have h2 : olds = [] := by simpa using holds
      subst h2
      exact ⟨([], []), by simp [reconcileChildrenAux]⟩
    · rw [reconcileChildrenAux_step f (e :: es) olds first prevNil (by simp)]
      have hb : (!first && prevNil) = false := by
        rcases hcond with h | h <;> simp [h]
      simp only [hb, Bool.false_eq_true, if_false, List.tail_cons,
        List.getElem?_cons_zero, optJoin_some]
      rcases es with _ | ⟨e2, es2⟩
      · -- final iteration: the chain ends here whatever the head classifies to
        have h2 : olds.tail = [] := by
          rcases olds with _ | ⟨o, os⟩ <;> simp_all
        rw [h2, reconcileChildrenAux_nil_nil]
        exact ⟨_, rfl⟩
      · -- non-final iteration: the head is truthy, so prevSibling is not null
        have he : ∃ el, e = some el := by
          have h0 := hgood 0 (by simp)
          rcases e with _ | el
          · simp [optJoin_some] at h0
          · exact ⟨el, rfl⟩
        obtain ⟨el, rfl⟩ := he
        have hsome : (classifyNew olds[0]? (some el)).isNone = false := by
          have hs := classifyNew_isSome_of_elem olds[0]? el
          rcases hcs : classifyNew olds[0]? (some el) with _ | x
          · rw [hcs] at hs; simp at hs
          · rfl
        rw [hsome]
        obtain ⟨r, hr⟩ := ih (e2 :: es2) olds.tail false false
          (by rcases olds with _ | ⟨o, os⟩ <;> simp_all <;> omega)
          (by intro k hk; have := hgood (k + 1) (by simpa using hk); simpa using this)
          (by rcases olds with _ | ⟨o, os⟩ <;> simp_all <;> omega)
          (Or.inr rfl)
        rw [hr]
        exact ⟨_, rfl⟩

/-- **C10**: `createElement` keeps a `null` child un-wrapped (its `typeof`
is `'object'`), and the reconciliation loop assumes every non-final position
yields a truthy new fiber: a falsy entry (a kept `null` child) at a
non-final index makes the next iteration write `prevSibling.sibling` with
`prevSibling` null, a reachable TypeError in the total embedding; with
falsy entries only at the final position (and no surplus old fibers) the
loop completes, so only a trailing `null` child is safe. -/
theorem createElement_null_child_hazard :
    (∀ (t : FiberType) (ps : List (String × JsValue)) (cs : List JChild)
        (k : Nat), cs[k]? = some .jnull →
        ((createElement t ps cs).props.children)[k]? = some none) ∧
    (∀ (olds : List FTree) (elems : List (Option Element)) (k : Nat),
        elems[k]? = some none → k + 1 < elems.length →
        reconcileChildren olds elems = .error .nullSibling) ∧
    (∀ (olds : List FTree) (elems : List (Option Element)),
        (∀ k, k + 1 < elems.length → (elems[k]?.join).isSome) →
        olds.length ≤ elems.length →
        ∃ r, reconcileChildren olds elems = .ok r) := by
  refine ⟨?_, ?_, ?_⟩
  · intro t ps cs k hk
    simp [createElement, Element.props, FProps.children, List.getElem?_map,
      hk]
  · intro olds elems k hk hlt
    exact reconcileChildrenAux_null_mid_error k _ elems olds true true
      le_rfl hk hlt
  · intro olds elems hgood holds
    exact reconcileChildrenAux_ok_of_good _ elems olds true true
      le_rfl hgood holds (Or.inl rfl)

/-- Witness for the C10 theorem: a `null` child kept by `createElement` at
index 0 of two children crashes reconciliation, while the same `null` child
in final position reconciles fine. -/
theorem createElement_null_child_hazard_witness :
    ((createElement (.str "div") []
        [JChild.jnull, .node (Element.mk (.str "p") (.mk [] []))]
      ).props.children)[0]? = some none ∧
    reconcileChildren []
        [none, some (Element.mk (.str "p") (.mk [] []))] =
      .error .nullSibling ∧
    ∃ r, reconcileChildren []
        [some (Element.mk (.str "p") (.mk [] [])), none] = .ok r := by
  refine ⟨?_, ?_, ?_⟩
  · exact createElement_null_child_hazard.1 (.str "div") []
      [JChild.jnull, .node (Element.mk (.str "p") (.mk [] []))] 0 rfl
  · exact createElement_null_child_hazard.2.1 []
      [none, some (Element.mk (.str "p") (.mk [] []))] 0 rfl (by decide)
  · exact createElement_null_child_hazard.2.2 []
      [some (Element.mk (.str "p") (.mk [] [])), none]
      (by
        intro k hk
        simp only [List.length_cons, List.length_nil] at hk
        have hk0 : k = 0 := by omega
        subst hk0
        rfl)
      (by decide)

/-- **C5**: evaluation of `updateDom` at a changed event handler.  The spec
requires an event binding present in the old attributes and *changed* in the
new ones to be detached before the new listener is attached, so that the two
are never attached simultaneously.  The source's removal filter is
`isGone = prev[key] && !next[key]`, which is false for a truthy-to-truthy
change, so the old `click` listener is never detached: after the update both
the old and the new handler are attached to the node at once. -/
theorem updateDom_changed_handler_keeps_old_listener :
    (updateDom
        { isText := false, tag := "h1", props := [],
          listeners := [("click", JsValue.fn 1)], children := [] }
        [("onClick", JsValue.fn 1)] [("onClick", JsValue.fn 2)]).listeners =
      [("click", JsValue.fn 1), ("click", JsValue.fn 2)] ∧
    ("click", JsValue.fn 1) ∈
      (updateDom
        { isText := false, tag := "h1", props := [],
          listeners := [("click", JsValue.fn 1)], children := [] }
        [("onClick", JsValue.fn 1)] [("onClick", JsValue.fn 2)]).listeners ∧
    ("click", JsValue.fn 2) ∈
      (updateDom
        { isText := false, tag := "h1", props := [],
          listeners := [("click", JsValue.fn 1)], children := [] }
        [("onClick", JsValue.fn 1)] [("onClick", JsValue.fn 2)]).listeners := by
  refine ⟨by decide, by decide, by decide⟩

/-! ## Hooks (`useState` of the embedded snapshot)

The source keeps two module-level variables while a function component is
being evaluated: `wipFiber` (the unit being evaluated) and `hookIndex` (the
cursor).  `WipCtx` carries exactly what `useState` touches of them:
`wipFiber.alternate?.hooks`, the cursor, and the `hooks` list being built on
the work-in-progress fiber.  An absent context (`none`) models
`wipFiber === null`: no function-kind unit is being evaluated. -/

structure WipCtx where
  altHooks : Option (List Hook)
  hookIndex : Nat
  hooks : List Hook
  deriving Repr

/-- The JS TypeError raised when `useState` reads `wipFiber.alternate` with
`wipFiber` null. -/
inductive HookError where
  | typeError
  deriving DecidableEq, Repr

/-- `useState(initial)` from the source: reads
`wipFiber.alternate?.hooks?.[hookIndex]` (an immediate TypeError when no
function-kind unit is being evaluated), seeds the new hook's state from the
old slot at the cursor when present (JS truthiness of the hook object is its
presence) and otherwise from `initial`, pushes the new hook onto
`wipFiber.hooks`, advances the cursor, and returns the state (this snapshot
returns `[hook.state]` with no updater). -/
def useState (ctx : Option WipCtx) (initial : JsValue) :
    Except HookError (JsValue × WipCtx) :=
  match ctx with
  | none => .error .typeError
  | some c =>
    let oldHook := c.altHooks.bind (fun hs => hs[c.hookIndex]?)
    let st := match oldHook with
      | some h => h.state
      | none => initial
    .ok (st, ⟨c.altHooks, c.hookIndex + 1, c.hooks ++ [⟨st⟩]⟩)

/-- The hook context `updateFunctionComponent` installs before invoking the
component function: `wipFiber = fiber`, `hookIndex = 0`,
`wipFiber.hooks = []`. -/
def freshHookCtx (altHooks : Option (List Hook)) : WipCtx :=
  ⟨altHooks, 0, []⟩

/-- A component body that invokes the local-state accessor once per entry of
`initials`, in that fixed order, threading the cursor context. -/
def runHookCalls : List JsValue → WipCtx → Except HookError (List JsValue × WipCtx)
  | [], c => .ok ([], c)
  | i :: is, c => do
      let (v, c') ← useState (some c) i
      let (vs, c'') ← runHookCalls is c'
      .ok (v :: vs, c'')

/-- The value the `i`-th accessor call is seeded with: the state of
`alternate.hooks[i]` when that slot exists, else the caller default. -/
def hookSeed (altHooks : Option (List Hook)) (initial : JsValue) (i : Nat) :
    JsValue :=
  match altHooks.bind (fun hs => hs[i]?) with
  | some h => h.state
  | none => initial

/-- **C9**: invoking the local-state accessor with no active cursor context
(`wipFiber === null`) raises the TypeError at the call itself — the result
is an immediate error carrying no recorded state, not a deferred failure. -/
theorem useState_no_context_errors (initial : JsValue) :
    useState none initial = .error .typeError := rfl

theorem getElem?_mapIdx {α β : Type} (f : Nat → α → β) :
    ∀ (l : List α) (i : Nat), (l.mapIdx f)[i]? = (l[i]?).map (f i) := by
  intro l
  induction l generalizing f with
  | nil => intro i; simp
  | cons a as ih =>
    intro i
    rcases i with _ | i
    · simp [List.mapIdx_cons]
    · simp [List.mapIdx_cons, ih]

/-- Closed form of a straight-line sequence of accessor calls. -/
theorem runHookCalls_eq :
    ∀ (initials : List JsValue) (altHooks : Option (List Hook)) (idx : Nat)
      (hs : List Hook),
      runHookCalls initials ⟨altHooks, idx, hs⟩ =
        .ok (initials.mapIdx (fun j init => hookSeed altHooks init (idx + j)),
             ⟨altHooks, idx + initials.length,
              hs ++ (initials.mapIdx
                  (fun j init => hookSeed altHooks init (idx + j))).map
                (fun v => ⟨v⟩)⟩) := by
  intro initials
  induction initials with
  | nil => intro altHooks idx hs; simp [runHookCalls]
  | cons i is ih =>
    intro altHooks idx hs
    have hstep : useState (some ⟨altHooks, idx, hs⟩) i =
        .ok (hookSeed altHooks i idx, ⟨altHooks, idx + 1, hs ++ [⟨hookSeed altHooks i idx⟩]⟩) := by
      unfold useState hookSeed
      rfl
    simp only [runHookCalls, hstep, Bind.bind, Except.bind, ih]
    simp only [List.mapIdx_cons, Except.ok.injEq, Prod.mk.injEq, List.map_cons,
      WipCtx.mk.injEq]
    have hfun : (fun (j : Nat) (init : JsValue) =>
          hookSeed altHooks init (idx + 1 + j)) =
        (fun (j : Nat) (init : JsValue) =>
          hookSeed altHooks init (idx + (j + 1))) := by
      funext j init
      congr 1
      omega
    rw [hfun]
    refine ⟨by simp, ?_⟩
    simp only [List.length_cons, Nat.add_zero, List.append_assoc,
      List.singleton_append, and_true, true_and]
    omega

/-- **C7**: hook-slot continuity is positional.  Evaluating a function-kind
unit installs the reset context (`freshHookCtx`: cursor `0`, empty `hooks`
list); a component body making its accessor calls in fixed order (one per
entry of `initials`) then produces, at every cursor position `i`, the slot
seeded from `alternate.hooks[i]` when that slot exists and from the
caller-supplied default otherwise — so the first call's slot sits at cursor
0 and the second call's at cursor 1 in every generation, whatever
`alternate.hooks` contains. -/
theorem useState_positional_continuity (altHooks : Option (List Hook))
    (initials : List JsValue) :
    ∃ vs ctx, runHookCalls initials (freshHookCtx altHooks) = .ok (vs, ctx) ∧
      ctx.altHooks = altHooks ∧
      ctx.hookIndex = initials.length ∧
      ctx.hooks.length = initials.length ∧
      (∀ (i : Nat) (init : JsValue), initials[i]? = some init →
        ctx.hooks[i]? = some ⟨hookSeed altHooks init i⟩ ∧
        vs[i]? = some (hookSeed altHooks init i)) := by
  have h := runHookCalls_eq initials altHooks 0 []
  refine ⟨_, _, h, rfl, by simp, by simp [getElem?_mapIdx], ?_⟩
  intro i init hi
  constructor
  · simp only [List.nil_append, getElem?_mapIdx, List.getElem?_map, hi,
      Option.map_some]
    simp
  · simp only [getElem?_mapIdx, hi, Option.map_some]
    simp

/-- Witness for the C7 theorem: the `Counter` scenario — two accessor calls
(count, visible) in fixed order.  In a first generation (no old hooks) the
slots at cursors 0 and 1 hold the defaults; in a later generation they are
seeded positionally from `alternate.hooks`. -/
theorem useState_positional_continuity_witness :
    (∃ vs ctx,
      runHookCalls [JsValue.num 0, JsValue.bool true] (freshHookCtx none) =
        .ok (vs, ctx) ∧
      ctx.altHooks = none ∧
      ctx.hookIndex = 2 ∧
      ctx.hooks.length = 2 ∧
      ctx.hooks[0]? = some ⟨JsValue.num 0⟩ ∧
      ctx.hooks[1]? = some ⟨JsValue.bool true⟩) ∧
    (∃ vs ctx,
      runHookCalls [JsValue.num 0, JsValue.bool true]
          (freshHookCtx (some [⟨JsValue.num 5⟩, ⟨JsValue.bool false⟩])) =
        .ok (vs, ctx) ∧
      ctx.hooks[0]? = some ⟨JsValue.num 5⟩ ∧
      ctx.hooks[1]? = some ⟨JsValue.bool false⟩) := by
  constructor
  · obtain ⟨vs, ctx, hrun, ha, hidx, hlen, hslots⟩ :=
      useState_positional_continuity none [JsValue.num 0, JsValue.bool true]
    refine ⟨vs, ctx, hrun, ha, hidx, hlen, ?_, ?_⟩
    · exact (hslots 0 (JsValue.num 0) rfl).1
    · exact (hslots 1 (JsValue.bool true) rfl).1
  · obtain ⟨vs, ctx, hrun, ha, hidx, hlen, hslots⟩ :=
      useState_positional_continuity
        (some [⟨JsValue.num 5⟩, ⟨JsValue.bool false⟩])
        [JsValue.num 0, JsValue.bool true]
    refine ⟨vs, ctx, hrun, ?_, ?_⟩
    · exact (hslots 0 (JsValue.num 0) rfl).1
    · exact (hslots 1 (JsValue.bool true) rfl).1

/-! ## The updater-bearing accessor of the final snapshot

The repository's entry point (`src/index.jsx`) imports
`step8-hooks/2-3.jsx`, the final snapshot whose `useState` also returns a
`setState` updater; that file is not part of the embedded sources, so the
updater is modelled from the spec. -/

/-- Modelled from the spec: the hook slot of the final snapshot
(`step8-hooks/2-3.jsx`, absent from the embedded sources): a state value
plus the pending queue of values handed to the updater since the last
evaluation. -/
structure QHook where
  state : JsValue
  queue : List JsValue
  deriving DecidableEq, Repr

/-- Modelled from the spec: the scheduler fields the updater touches —
the committed root, the work-in-progress root, whether `nextUnitOfWork`
points at the work-in-progress root, and the deletion set. -/
structure SchedState where
  currentRoot : Option FTree
  wipRoot : Option FTree
  nextIsWipRoot : Bool
  deletions : List FTree
  deriving Repr

/-- Modelled from the spec: slot evaluation in the final snapshot — the
value is seeded from the old slot when present (else the caller default),
the old slot's pending queue is replayed onto it in order, and the new slot
starts with an empty queue. -/
def useStateQ (oldHook : Option QHook) (initial : JsValue) : QHook :=
  let seeded := match oldHook with
    | some h => h.state
    | none => initial
  let replayed := (match oldHook with
    | some h => h.queue
    | none => []).foldl (fun _ v => v) seeded
  ⟨replayed, []⟩

/-- Modelled from the spec: the accessor returns the current slot value and
an updater; the updater is represented by the returned slot, to which
`setStateQ` applies. -/
def useStateFull (oldHook : Option QHook) (initial : JsValue) :
    JsValue × QHook :=
  ((useStateQ oldHook initial).state, useStateQ oldHook initial)

/-- Modelled from the spec: invoking the updater with a new value pushes the
value onto the slot's pending queue and schedules a brand-new render request
rooted at the committed root's description — a fresh work-in-progress root
carrying `currentRoot`'s props with `alternate = currentRoot`,
`nextUnitOfWork` pointed at it and the deletion set cleared.  Neither the
committed tree nor the slot's state value is mutated. -/
def setStateQ (st : SchedState) (h : QHook) (v : JsValue) :
    SchedState × QHook :=
  match st.currentRoot with
  | none => (st, h)
  | some cr =>
    ({ st with
        wipRoot := some (.mk cr.type cr.props cr.dom (some cr) none none []),
        nextIsWipRoot := true,
        deletions := [] },
     ⟨h.state, h.queue ++ [v]⟩)

/-- **C3**: the local-state accessor returns both the current slot value and
an updater (`useStateFull`), and invoking the updater with a new value
schedules a brand-new render request rooted at the committed root's
description — the fresh work-in-progress root carries `currentRoot`'s props
and has `alternate = currentRoot` — without mutating the just-rendered tree
or slot in place (`currentRoot` and the slot's state are unchanged; only the
pending queue grows), so the next top-down pass's evaluation of the slot
returns the new value. -/
theorem useState_updater_schedules_rerender (st : SchedState) (cr : FTree)
    (h : QHook) (v initial : JsValue) (hcr : st.currentRoot = some cr) :
    useStateFull (some h) initial =
      ((useStateQ (some h) initial).state, useStateQ (some h) initial) ∧
    (setStateQ st h v).1.wipRoot =
      some (FTree.mk cr.type cr.props cr.dom (some cr) none none []) ∧
    (setStateQ st h v).1.nextIsWipRoot = true ∧
    (setStateQ st h v).1.deletions = [] ∧
    (setStateQ st h v).1.currentRoot = some cr ∧
    (setStateQ st h v).2.state = h.state ∧
    (useStateQ (some (setStateQ st h v).2) initial).state = v := by
  unfold setStateQ
  rw [hcr]
  refine ⟨rfl, rfl, rfl, rfl, rfl, rfl, ?_⟩
  simp [useStateQ, List.foldl_append]

/-- Witness for the C3 theorem at a concrete scheduler state, slot
and value. -/
theorem useState_updater_schedules_rerender_witness :
    (useStateQ
        (some (setStateQ
            ⟨some (FTree.mk (.str "ROOT") (.mk [] []) (some 0) none none
                none []),
             none, false, []⟩
          ⟨JsValue.num 0, []⟩ (JsValue.num 1)).2)
        (JsValue.num 0)).state = JsValue.num 1 :=
  (useState_updater_schedules_rerender
    ⟨some (FTree.mk (.str "ROOT") (.mk [] []) (some 0) none none none []),
     none, false, []⟩
    (FTree.mk (.str "ROOT") (.mk [] []) (some 0) none none none [])
    ⟨JsValue.num 0, []⟩ (JsValue.num 1) (JsValue.num 0) rfl).2.2.2.2.2.2

/-! ## One render generation as a recursive build

`buildFiber` is the denotation of draining the work loop over one fiber and
its whole subtree: `performNextUnitOfWork` visits each fiber once in
depth-first order and each visit only reads the fiber itself plus its
`alternate` and writes its own child chain, so the drained result is this
recursion.  Component functions are embedded as `Body`: the sequence of
local-state accessor calls the function makes, ending in its returned
description node. -/

/-- A component function body, deeply embedded through its interaction
surface with the engine: `call initial k` invokes the local-state accessor
and hands the returned state to the continuation (so the body may branch on
it), `ret e` is the single description node the function returns. -/
inductive Body where
  | ret (e : Element)
  | call (initial : JsValue) (k : JsValue → Body)

/-- The component environment: the JS function each `comp` id denotes,
applied to the fiber's props. -/
def CompEnv : Type := Nat → FProps → Body

/-- Evaluation of a component body against the cursor context, each
accessor call going through `useState`. -/
def runBody : Body → WipCtx → Except HookError (Element × WipCtx)
  | .ret e, c => .ok (e, c)
  | .call i k, c => do
      let (v, c') ← useState (some c) i
      runBody (k v) c'

/-- `createDom(fiber)` from the source for a host fiber of tag `s`: an empty
text node for `TEXT_ELEMENT`, otherwise an element node; then
`updateDom(dom, {}, fiber.props)` installs the initial properties and
listeners.  Returns the new node's id and the grown arena. -/
def createDom (s : String) (attrs : List (String × JsValue))
    (doms : List DomNode) : Nat × List DomNode :=
  let base : DomNode :=
    if s = "TEXT_ELEMENT" then
      { isText := true, tag := "", props := [], listeners := [],
        children := [] }
    else
      { isText := false, tag := s, props := [], listeners := [],
        children := [] }
  (doms.length, doms ++ [updateDom base [] attrs])

inductive BuildError where
  | rerr (e : RError)
  | herr (e : HookError)
  | fuelOut
  deriving DecidableEq, Repr

/-- `FTree.withChildren`: attach the built child chain to a worked fiber. -/
def FTree.withChildren : FTree → List FTree → FTree
  | .mk t p d a e h _, kids => .mk t p d a e h kids

/-- The work of one unit, exactly the body of `performNextUnitOfWork`
before the next-unit search: a host fiber without a node gets one from
`createDom` and reconciles `props.children` (`updateHostComponent`); a
function fiber runs its body under the reset cursor context, stores the
built `hooks` list, and reconciles the single returned element
(`updateFunctionComponent`).  `parentDom` is the id of the nearest
host-bearing ancestor's node (the commit phase resolves it by walking
`parent` links; a deleted old child's host parent — identical for the old
and the new chain, since matched fibers share their host node — is recorded
at this resolution).  Returns the worked fiber (children pending), its
pending child chain, the deletion records, and the host arena. -/
def unitWork (env : CompEnv) (f : FTree) (parentDom : Nat)
    (doms : List DomNode) :
    Except BuildError (FTree × List FTree × List (Nat × FTree) × List DomNode) :=
  match f.type with
  | .comp cid =>
    match runBody (env cid f.props)
        (freshHookCtx (f.alternate.bind FTree.hooks)) with
    | .error e => .error (.herr e)
    | .ok (el, ctx) =>
      match reconcileChildren ((f.alternate.map FTree.children).getD [])
          [some el] with
      | .error e => .error (.rerr e)
      | .ok (chain, rawDels) =>
        .ok (.mk f.type f.props f.dom f.alternate f.effectTag
               (some ctx.hooks) [],
             chain, rawDels.map (fun o => (parentDom, o)), doms)
  | .str s =>
    let dd :=
      match f.dom with
      | some d => (d, doms)
      | none => createDom s f.props.attrs doms
    match reconcileChildren ((f.alternate.map FTree.children).getD [])
        f.props.children with
    | .error e => .error (.rerr e)
    | .ok (chain, rawDels) =>
      .ok (.mk f.type f.props (some dd.1) f.alternate f.effectTag f.hooks [],
           chain, rawDels.map (fun o => (dd.1, o)), dd.2)

/-- The work of a pending chain and of everything below it: the denotation
of draining `performNextUnitOfWork`, which visits each fiber once in
depth-first resumable order (child chain before the remaining siblings) —
each visit reads only the fiber itself plus its `alternate` and writes its
own child chain, so the drained result is this recursion.  One fuel unit is
consumed per step; `renderBuild` callers supply ample fuel. -/
def buildFibers (env : CompEnv) : Nat → List FTree → Nat → List DomNode →
    Except BuildError (List FTree × List (Nat × FTree) × List DomNode)
  | 0, _, _, _ => .error .fuelOut
  | _ + 1, [], _, doms => .ok ([], [], doms)
  | fuel + 1, f :: fs, parentDom, doms =>
    match unitWork env f parentDom doms with
    | .error e => .error e
    | .ok (worked, kids0, dels1, doms1) =>
      match buildFibers env fuel kids0 (worked.dom.getD parentDom) doms1 with
      | .error e => .error e
      | .ok (kids, dels2, doms2) =>
        match buildFibers env fuel fs parentDom doms2 with
        | .error e => .error e
        | .ok (ts, dels3, doms3) =>
          .ok (worked.withChildren kids :: ts, dels1 ++ dels2 ++ dels3, doms3)

/-- `render(element, container)` followed by a full drain of the work loop:
the work-in-progress root (owning the container node, props
`{ children: [element] }`, `alternate` the committed root; its JS `type` is
`undefined`, which is not a function, so it takes the host path — spelled
`ROOT` here) processed with its whole subtree. -/
def renderBuild (env : CompEnv) (fuel : Nat) (element : Element)
    (containerId : Nat) (old : Option FTree) (doms : List DomNode) :
    Except BuildError (List FTree × List (Nat × FTree) × List DomNode) :=
  buildFibers env fuel
    [.mk (.str "ROOT") (.mk [] [some element]) (some containerId) old
      none none []]
    containerId doms

/-! ## The commit phase on the built tree -/

/-- Point update of one arena node. -/
def modifyNode (doms : List DomNode) (i : Nat) (g : DomNode → DomNode) :
    List DomNode :=
  match doms[i]? with
  | some d => doms.set i (g d)
  | none => doms

/-- `domParent.appendChild(node)`. -/
def appendChild (doms : List DomNode) (parent child : Nat) : List DomNode :=
  modifyNode doms parent (fun d => { d with children := d.children ++ [child] })

/-- `domParent.removeChild(node)`: detaches the child id (the host platform
assumes presence; an absent id is a no-op here). -/
def removeChild (doms : List DomNode) (parent child : Nat) : List DomNode :=
  modifyNode doms parent (fun d => { d with children := d.children.erase child })

/-- `deleteDom(fiber, domParent)` from the source: remove the fiber's host
node from the resolved parent; a host-less (component) fiber recurses into
its first child (`fiber.child`).  A host-less fiber without a child would be
a JS TypeError; it cannot arise from fibers this engine builds (a function
fiber always carries its single returned element as child) and is a no-op
here. -/
def deleteDom : FTree → Nat → List DomNode → List DomNode
  | .mk _ _ (some d) _ _ _ _, domParent, doms => removeChild doms domParent d
  | .mk _ _ none _ _ _ [], _, doms => doms
  | .mk _ _ none _ _ _ (c :: _), domParent, doms => deleteDom c domParent doms

/-- `commitWork(fiber)` from the source, as a depth-first worklist of
`(resolved host parent, fiber)` entries: a `DELETION`-tagged fiber (reached
through the deletion records) has its host subtree removed and the
recursion stops there; otherwise the resolved nearest host-bearing
ancestor's node (which the source computes by walking `parent` links)
receives the fiber's own effect — `PLACEMENT` with a host node appends it,
`UPDATE` with a host node diffs `alternate.props` against `props` on the
very same node in place — and the recursion continues through the child
chain before the remaining entries (`commitWork(fiber.child)` then
`commitWork(fiber.sibling)`).  One fuel unit per entry; callers supply
ample fuel. -/
def commitFibers : Nat → List (Nat × FTree) → List DomNode → List DomNode
  | 0, _, doms => doms
  | _ + 1, [], doms => doms
  | fuel + 1, (parentDom, f) :: rest, doms =>
    match f.effectTag with
    | some .deletion => commitFibers fuel rest (deleteDom f parentDom doms)
    | _ =>
      let doms1 :=
        match f.effectTag, f.dom with
        | some .placement, some d => appendChild doms parentDom d
        | some .update, some d =>
          match f.alternate with
          | some alt =>
              modifyNode doms d
                (fun n => updateDom n alt.props.attrs f.props.attrs)
          | none => doms
        | _, _ => doms
      commitFibers fuel
        (f.children.map (fun c => (f.dom.getD parentDom, c)) ++ rest) doms1

mutual
/-- Number of fibers in a subtree. -/
def FTree.size : FTree → Nat
  | .mk _ _ _ _ _ _ c => 1 + sizeChain c
/-- Number of fibers in a chain of subtrees. -/
def sizeChain : List FTree → Nat
  | [] => 0
  | t :: ts => FTree.size t + sizeChain ts
end

/-- Ample fuel for `commitFibers`: every step consumes an entry and pushes
its children, whose sizes sum below the entry's. -/
def commitFuel (dels : List (Nat × FTree)) (root : FTree) : Nat :=
  dels.foldl (fun a pr => a + FTree.size pr.2) 0 + FTree.size root + 1

/-- `commitRoot()` from the source: first commit every deletion record
(`deletions.forEach(commitWork)`), then the whole new chain starting at the
root's child (`commitWork(wipRoot.child)`; the sibling recursion covers the
rest of the chain).  The generation swap lives in the scheduler machine. -/
def commitRootTree (root : FTree) (dels : List (Nat × FTree))
    (doms : List DomNode) : List DomNode :=
  let doms1 := commitFibers (commitFuel dels root) dels doms
  commitFibers (commitFuel dels root)
    (root.children.map (fun c => (root.dom.getD 0, c))) doms1

/-! ## Idempotence machinery -/

/-- The fiber the second-pass reconciliation links for an already-built
fiber of unchanged kind: same type, props and host node, `alternate` the
built fiber, the given effect tag (an `UPDATE` inside chains; the fresh root
carries no tag). -/
def remount (t : FTree) (tg : Option ETag) : FTree :=
  .mk t.type t.props t.dom (some t) tg none []

mutual
/-- The fiber the second pass completes from `remount t tg`: identical to
`t` except for `alternate` (now `t` itself) and the effect tag, recursively
in the whole subtree (children all tagged `UPDATE`); a function fiber keeps
its rebuilt — unchanged — hooks, a host fiber carries none. -/
def secondTree : FTree → Option ETag → FTree
  | .mk ty p d a e h c, tg =>
    .mk ty p d (some (.mk ty p d a e h c)) tg
      (match ty with
       | .comp _ => h
       | .str _ => none)
      (secondChain c)
/-- The second pass of a child chain: every fiber tagged `UPDATE`. -/
def secondChain : List FTree → List FTree
  | [] => []
  | t :: ts => secondTree t (some .update) :: secondChain ts
end

/-- A body run from cursor `idx` appends its slots after the hooks built so
far and advances the cursor by their number. -/
theorem runBody_shape (b : Body) :
    ∀ (ah : Option (List Hook)) (idx : Nat) (hs : List Hook),
      ∃ e new, runBody b ⟨ah, idx, hs⟩ =
        .ok (e, ⟨ah, idx + new.length, hs ++ new⟩) := by
  induction b with
  | ret e => intro ah idx hs; exact ⟨e, [], by simp [runBody]⟩
  | call i k ih =>
    intro ah idx hs
    obtain ⟨e, new, hrec⟩ := ih (hookSeed ah i idx) ah (idx + 1)
      (hs ++ [⟨hookSeed ah i idx⟩])
    refine ⟨e, ⟨hookSeed ah i idx⟩ :: new, ?_⟩
    have hstep : useState (some ⟨ah, idx, hs⟩) i =
        .ok (hookSeed ah i idx,
          ⟨ah, idx + 1, hs ++ [⟨hookSeed ah i idx⟩]⟩) := rfl
    simp only [runBody, hstep, Bind.bind, Except.bind, hrec]
    have h1 : idx + 1 + new.length = idx + (⟨hookSeed ah i idx⟩ :: new).length := by
      simp only [List.length_cons]
      omega
    have h2 : hs ++ [⟨hookSeed ah i idx⟩] ++ new =
        hs ++ ⟨hookSeed ah i idx⟩ :: new := by
      simp
    rw [h1, h2]

/-- Replaying a body against the hook list a previous run of it produced
yields the same element and the same hooks: the slot read at each cursor is
the slot the previous run wrote there. -/
theorem runBody_replay (b : Body) :
    ∀ (ah : Option (List Hook)) (idx : Nat) (hs : List Hook)
      (e : Element) (new : List Hook),
      runBody b ⟨ah, idx, hs⟩ = .ok (e, ⟨ah, idx + new.length, hs ++ new⟩) →
      ∀ (H : List Hook) (hs2 : List Hook),
        (∀ (j : Nat) (x : Hook), new[j]? = some x → H[idx + j]? = some x) →
        runBody b ⟨some H, idx, hs2⟩ =
          .ok (e, ⟨some H, idx + new.length, hs2 ++ new⟩) := by
  induction b with
  | ret e0 =>
    intro ah idx hs e new h H hs2 hH
    simp only [runBody, Except.ok.injEq, Prod.mk.injEq, WipCtx.mk.injEq] at h
    obtain ⟨he, -, -, hhs⟩ := h
    have hnew : new = [] := by
      have h1 : hs ++ ([] : List Hook) = hs ++ new := by simpa using hhs
      exact (List.append_cancel_left h1).symm
    subst hnew
    simp [runBody, he]
  | call i k ih =>
    intro ah idx hs e new h H hs2 hH
    have hstep : useState (some ⟨ah, idx, hs⟩) i =
        .ok (hookSeed ah i idx,
          ⟨ah, idx + 1, hs ++ [⟨hookSeed ah i idx⟩]⟩) := rfl
    simp only [runBody, hstep, Bind.bind, Except.bind] at h
    obtain ⟨e', new', hrec⟩ := runBody_shape (k (hookSeed ah i idx)) ah
      (idx + 1) (hs ++ [⟨hookSeed ah i idx⟩])
    rw [hrec] at h
    simp only [Except.ok.injEq, Prod.mk.injEq, WipCtx.mk.injEq] at h
    obtain ⟨he, -, hlen, hhs⟩ := h
    have hnew : new = ⟨hookSeed ah i idx⟩ :: new' := by
      have h1 : hs ++ ⟨hookSeed ah i idx⟩ :: new' = hs ++ new := by
        simpa using hhs
      exact (List.append_cancel_left h1).symm
    subst hnew
    have hH0 : H[idx]? = some ⟨hookSeed ah i idx⟩ := by
      have := hH 0 ⟨hookSeed ah i idx⟩ (by simp)
      simpa using this
    have hstep2 : useState (some ⟨some H, idx, hs2⟩) i =
        .ok (hookSeed ah i idx,
          ⟨some H, idx + 1, hs2 ++ [⟨hookSeed ah i idx⟩]⟩) := by
      simp only [useState, Option.some_bind, hH0]
    have hrec2 := ih (hookSeed ah i idx) ah (idx + 1)
      (hs ++ [⟨hookSeed ah i idx⟩]) e' new' (by rw [hrec, he]) H
      (hs2 ++ [⟨hookSeed ah i idx⟩])
      (by
        intro j x hj
        have := hH (j + 1) x (by simpa using hj)
        have harith : idx + (j + 1) = idx + 1 + j := by omega
        rw [harith] at this
        exact this)
    simp only [runBody, hstep2, Bind.bind, Except.bind, hrec2]
    rw [he]
    have h1 : idx + 1 + new'.length =
        idx + (⟨hookSeed ah i idx⟩ :: new').length := by
      simp only [List.length_cons]
      omega
    have h2 : hs2 ++ [⟨hookSeed ah i idx⟩] ++ new' =
        hs2 ++ ⟨hookSeed ah i idx⟩ :: new' := by
      simp
    rw [h1, h2]

theorem filterMap_range_stop {α : Type} (g : Nat → Option α) :
    ∀ (N m : Nat), m ≤ N → (∀ k, m ≤ k → g k = none) →
      (List.range N).filterMap g = (List.range m).filterMap g := by
  intro N
  induction N with
  | zero => intro m h _; simp_all
  | succ n ih =>
    intro m h h2
    rcases Nat.lt_or_ge m (n + 1) with hlt | hge
    · have hm : m ≤ n := by omega
      rw [List.range_succ, List.filterMap_append, ih m hm h2,
        List.filterMap_cons]
      rw [h2 n hm]
      simp
    · have : m = n + 1 := by omega
      subst this
      rfl

theorem filterMap_range_all_some {α : Type} (g : Nat → Option α) :
    ∀ (m : Nat), (∀ k, k < m → (g k).isSome) →
      ((List.range m).filterMap g).length = m ∧
      (∀ k, k < m → ((List.range m).filterMap g)[k]? = g k) := by
  intro m
  induction m with
  | zero => intro _; simp
  | succ n ih =>
    intro h
    obtain ⟨hlen, hget⟩ := ih (fun k hk => h k (by omega))
    rcases hgm : g n with _ | x
    · exact absurd (hgm ▸ h n (by omega)) (by simp)
    rw [List.range_succ, List.filterMap_append, List.filterMap_cons, hgm]
    constructor
    · simp [hlen]
    · intro k hk
      rcases Nat.lt_or_ge k n with hkn | hkn
      · rw [List.getElem?_append_left (by simpa [hlen] using hkn)]
        exact hget k hkn
      · have hk2 : k = n := by omega
        subst hk2
        rw [List.getElem?_append_right (by simp [hlen])]
        simp [hlen, hgm]

/-- A successful reconciliation has truthy descriptions at every non-final
index (otherwise the next iteration's linking step would have crashed). -/
theorem reconcileChildren_ok_nonfinal (olds : List FTree)
    (elems : List (Option Element)) (r : List FTree × List FTree)
    (h : reconcileChildren olds elems = .ok r) :
    ∀ k, k + 1 < elems.length → (elems[k]?.join).isSome := by
  intro k hk
  rcases hke : elems[k]? with _ | e
  · exact absurd (List.getElem?_eq_none_iff.mp hke) (by omega)
  · rcases e with _ | el
    · exfalso
      have := reconcileChildrenAux_null_mid_error k
        (elems.length + olds.length) elems olds true true le_rfl hke hk
      rw [reconcileChildren] at h
      rw [this] at h
      cases h
    · simp [hke, optJoin_some]

/-- The chain of a reconciliation whose truthy descriptions form a prefix
of length `m`: one fiber per truthy description, in order. -/
theorem classChain_prefix_form (olds : List FTree)
    (elems : List (Option Element)) (m : Nat) (hm1 : m ≤ elems.length)
    (hsome : ∀ k, k < m → (elems[k]?.join).isSome)
    (hnone : ∀ k, m ≤ k → elems[k]?.join = none) :
    (classChain olds elems).length = m ∧
    (∀ k, k < m →
      (classChain olds elems)[k]? = classifyNew olds[k]? (elems[k]?.join)) := by
  unfold classChain
  rw [filterMap_range_stop (fun k => classifyNew olds[k]? (elems[k]?.join))
    (max elems.length olds.length) m
    (le_trans hm1 (le_max_left _ _))
    (by
      intro k hk
      show classifyNew olds[k]? (elems[k]?.join) = none
      rw [hnone k hk]
      exact classifyNew_none_elem _)]
  exact filterMap_range_all_some _ m
    (by
      intro k hk
      show (classifyNew olds[k]? (elems[k]?.join)).isSome = true
      rcases hks : elems[k]?.join with _ | el
      · exact absurd (hks ▸ hsome k hk) (by simp)
      · exact classifyNew_isSome_of_elem _ el)

/-- Decomposition of a successful reconciliation: the truthy descriptions
form a prefix of length `m` (at most one trailing falsy entry can exist),
and the produced chain has exactly one fiber per truthy description, in
order, classified at that position. -/
theorem reconcileChildren_ok_decomp (olds : List FTree)
    (elems : List (Option Element)) (chain dels : List FTree)
    (h : reconcileChildren olds elems = .ok (chain, dels)) :
    ∃ m, m ≤ elems.length ∧ elems.length ≤ m + 1 ∧
      (∀ k, k < m → (elems[k]?.join).isSome) ∧
      (∀ k, m ≤ k → elems[k]?.join = none) ∧
      chain.length = m ∧
      (∀ k, k < m →
        chain[k]? = classifyNew olds[k]? (elems[k]?.join)) := by
  have hnf := reconcileChildren_ok_nonfinal olds elems _ h
  obtain ⟨hc, -⟩ := reconcileChildrenAux_ok_char _ _ _ _ _ _ _ h
  by_cases hall : ∀ k, k < elems.length → (elems[k]?.join).isSome
  · refine ⟨elems.length, le_rfl, by omega, hall, ?_, ?_⟩
    · intro k hk
      have : elems[k]? = none := List.getElem?_eq_none_iff.mpr hk
      simp [this]
    · rw [hc]
      exact classChain_prefix_form olds elems elems.length le_rfl hall
        (by
          intro k hk
          have : elems[k]? = none := List.getElem?_eq_none_iff.mpr hk
          simp [this])
  · push_neg at hall
    obtain ⟨k0, hk0, hk0none⟩ := hall
    have hk0fin : k0 = elems.length - 1 := by
      by_contra hne
      have : k0 + 1 < elems.length := by omega
      exact hk0none (hnf k0 this)
    have hnone : ∀ k, elems.length - 1 ≤ k → elems[k]?.join = none := by
      intro k hk
      rcases Nat.lt_or_ge k elems.length with hkl | hkl
      · have hkk : k = k0 := by omega
        subst hkk
        rcases hks : elems[k]?.join with _ | el
        · rfl
        · exact absurd (by rw [hks]; rfl) hk0none
      · have : elems[k]? = none := List.getElem?_eq_none_iff.mpr hkl
        simp [this]
    have hsome : ∀ k, k < elems.length - 1 → (elems[k]?.join).isSome := by
      intro k hk
      exact hnf k (by omega)
    refine ⟨elems.length - 1, by omega, by omega, hsome, hnone, ?_⟩
    rw [hc]
    exact classChain_prefix_form olds elems (elems.length - 1) (by omega)
      hsome hnone

/-- Reconciling the already-built chain of a successful pass against the
same description array links every position as an `UPDATE` of the built
fiber — `remount` — and records no deletion. -/
theorem reconcileChildren_rebuild (elems : List (Option Element))
    (kids : List FTree) (m : Nat)
    (hm1 : m ≤ elems.length) (hm2 : elems.length ≤ m + 1)
    (hsome : ∀ k, k < m → (elems[k]?.join).isSome)
    (hnone : ∀ k, m ≤ k → elems[k]?.join = none)
    (hlen : kids.length = m)
    (hmatch : ∀ (k : Nat) (el : Element) (o : FTree),
        elems[k]?.join = some el → kids[k]? = some o →
        o.type = el.type ∧ o.props = el.props) :
    reconcileChildren kids elems =
      .ok (kids.map (fun o => remount o (some .update)), []) := by
  obtain ⟨⟨chain, dels⟩, hok⟩ := reconcileChildrenAux_ok_of_good
    (elems.length + kids.length) elems kids true true le_rfl
    (by
      intro k hk
      exact hsome k (by omega))
    (by omega) (Or.inl rfl)
  obtain ⟨hc, hd⟩ := reconcileChildrenAux_ok_char _ _ _ _ _ _ _ hok
  subst hc; subst hd
  unfold reconcileChildren
  rw [hok]
  obtain ⟨hclen, hcget⟩ := classChain_prefix_form kids elems m hm1 hsome hnone
  have hchain : classChain kids elems =
      kids.map (fun o => remount o (some .update)) := by
    apply List.ext_getElem?
    intro j
    rcases Nat.lt_or_ge j m with hj | hj
    · rw [hcget j hj]
      rcases hkj : kids[j]? with _ | o
      · exact absurd (List.getElem?_eq_none_iff.mp hkj) (by omega)
      · rcases hej : elems[j]?.join with _ | el
        · exact absurd (hej ▸ hsome j hj) (by simp)
        · obtain ⟨hty, hpr⟩ := hmatch j el o hej hkj
          rw [List.getElem?_map, hkj]
          simp only [classifyNew, hty, if_true, Option.map_some]
          unfold updateFiberOf remount
          rw [← hty, ← hpr]
          rfl
    · have h1 : (classChain kids elems)[j]? = none :=
        List.getElem?_eq_none_iff.mpr (by omega)
      have h2 : (kids.map (fun o => remount o (some .update)))[j]? = none :=
        List.getElem?_eq_none_iff.mpr (by simp; omega)
      rw [h1, h2]
  have hdels : classDels kids elems = [] := by
    unfold classDels
    rw [List.filterMap_eq_nil_iff]
    intro k hk
    show classifyDel kids[k]? (elems[k]?.join) = none
    rcases Nat.lt_or_ge k m with hkm | hkm
    · have hks := hsome k hkm
      rcases hej : elems[k]?.join with _ | el
      · rw [hej] at hks; simp at hks
      · rcases kids[k]? with _ | o <;> rfl
    · have hkn : kids[k]? = none := List.getElem?_eq_none_iff.mpr (by omega)
      rw [hkn]
      rcases elems[k]?.join with _ | el <;> rfl
  rw [hchain, hdels]

theorem FTree.withChildren_type (t : FTree) (ks : List FTree) :
    (t.withChildren ks).type = t.type := by cases t; rfl

theorem FTree.withChildren_props (t : FTree) (ks : List FTree) :
    (t.withChildren ks).props = t.props := by cases t; rfl

theorem FTree.withChildren_dom (t : FTree) (ks : List FTree) :
    (t.withChildren ks).dom = t.dom := by cases t; rfl

theorem FTree.withChildren_hooks (t : FTree) (ks : List FTree) :
    (t.withChildren ks).hooks = t.hooks := by cases t; rfl

theorem FTree.withChildren_children (t : FTree) (ks : List FTree) :
    (t.withChildren ks).children = ks := by cases t; rfl

theorem classifyNew_some_shape (o? : Option FTree) (el : Element) (c : FTree)
    (h : classifyNew o? (some el) = some c) :
    c.type = el.type ∧ c.props = el.props := by
  rcases o? with _ | o
  · simp only [classifyNew] at h
    rw [← Option.some_inj.mp h]
    exact ⟨rfl, rfl⟩
  · simp only [classifyNew] at h
    by_cases hty : o.type = el.type <;> simp only [hty, if_true, if_false] at h <;>
      rw [← Option.some_inj.mp h] <;> exact ⟨rfl, rfl⟩

/-- Definitional unfolding of one `buildFibers` step. -/
theorem buildFibers_cons (env : CompEnv) (fuel : Nat) (f : FTree)
    (fs : List FTree) (pdom : Nat) (doms : List DomNode) :
    buildFibers env (fuel + 1) (f :: fs) pdom doms =
      match unitWork env f pdom doms with
      | .error e => .error e
      | .ok (worked, kids0, dels1, doms1) =>
        match buildFibers env fuel kids0 (worked.dom.getD pdom) doms1 with
        | .error e => .error e
        | .ok (kids, dels2, doms2) =>
          match buildFibers env fuel fs pdom doms2 with
          | .error e => .error e
          | .ok (ts, dels3, doms3) =>
            .ok (worked.withChildren kids :: ts,
                 dels1 ++ dels2 ++ dels3, doms3) := rfl

/-- The worked fiber of one unit: same type and props as the pending fiber,
empty child list, a host node for a host fiber, a hooks list for a function
fiber. -/
theorem unitWork_shape (env : CompEnv) (f : FTree) (pdom : Nat)
    (doms : List DomNode) (worked : FTree) (kids0 : List FTree)
    (dels1 : List (Nat × FTree)) (doms1 : List DomNode)
    (h : unitWork env f pdom doms = .ok (worked, kids0, dels1, doms1)) :
    worked.type = f.type ∧ worked.props = f.props ∧
    (∀ s, f.type = .str s → worked.dom.isSome) ∧
    (∀ cid, f.type = .comp cid → ∃ hs, worked.hooks = some hs) ∧
    (∀ d0, f.dom = some d0 → worked.dom = some d0) ∧
    worked.children = [] := by
  rcases f with ⟨fty, fp, fd, fa, fe, fh, fc⟩
  rcases fty with s | cid
  · simp only [unitWork, FTree.type] at h
    split at h
    · cases h
    · simp only [Except.ok.injEq, Prod.mk.injEq] at h
      obtain ⟨hw, -⟩ := h
      subst hw
      refine ⟨rfl, rfl, fun _ _ => by simp [FTree.dom], ?_, ?_, rfl⟩
      · intro cid hcid
        simp [FTree.type] at hcid
      · intro d0 hd0
        simp only [FTree.dom] at hd0 ⊢
        subst hd0
        rfl
  · simp only [unitWork, FTree.type] at h
    split at h
    · cases h
    · split at h
      · cases h
      · simp only [Except.ok.injEq, Prod.mk.injEq] at h
        obtain ⟨hw, -⟩ := h
        subst hw
        refine ⟨rfl, rfl, ?_, fun _ _ => ⟨_, rfl⟩, ?_, rfl⟩
        · intro s hcid
          simp [FTree.type] at hcid
        · intro d0 hd0
          simpa [FTree.dom] using hd0

/-- The fibers a successful pass completes are in bijection with the
pending fibers, preserving type and props; a host-kind output owns a node
and a function-kind output carries a hooks list. -/
theorem buildFibers_shape (env : CompEnv) :
    ∀ (fuel : Nat) (pend : List FTree) (pdom : Nat) (doms : List DomNode)
      (ts : List FTree) (dels : List (Nat × FTree)) (doms₁ : List DomNode),
      buildFibers env fuel pend pdom doms = .ok (ts, dels, doms₁) →
      ts.length = pend.length ∧
      (∀ (k : Nat) (t : FTree), ts[k]? = some t → ∃ p, pend[k]? = some p ∧
        t.type = p.type ∧ t.props = p.props ∧
        (∀ s, t.type = .str s → t.dom.isSome) ∧
        (∀ cid, t.type = .comp cid → ∃ hs, t.hooks = some hs) ∧
        (∀ d0, p.dom = some d0 → t.dom = some d0)) := by
  intro fuel
  induction fuel with
  | zero => intro pend pdom doms ts dels doms₁ h; cases h
  | succ fuel ih =>
    intro pend pdom doms ts dels doms₁ h
    rcases pend with _ | ⟨f, fs⟩
    · simp only [buildFibers, Except.ok.injEq, Prod.mk.injEq] at h
      obtain ⟨h1, -, -⟩ := h
      subst h1
      exact ⟨rfl, by intro k t ht; simp at ht⟩
    · rw [buildFibers_cons] at h
      rcases hu : unitWork env f pdom doms with e | ⟨worked, kids0, dels1, doms1⟩ <;>
        simp only [hu] at h
      · cases h
      rcases hk : buildFibers env fuel kids0 (worked.dom.getD pdom) doms1
          with e | ⟨kids, dels2, doms2⟩ <;> simp only [hk] at h
      · cases h
      rcases hsib : buildFibers env fuel fs pdom doms2
          with e | ⟨ts', dels3, doms3⟩ <;> simp only [hsib] at h
      · cases h
      simp only [Except.ok.injEq, Prod.mk.injEq] at h
      obtain ⟨hts, -, -⟩ := h
      subst hts
      obtain ⟨hw1, hw2, hw3, hw4, hw5, -⟩ := unitWork_shape env f pdom doms
        worked kids0 dels1 doms1 hu
      obtain ⟨hlen', hget'⟩ := ih fs pdom doms2 ts' dels3 doms3 hsib
      constructor
      · simp [hlen']
      · intro k t ht
        rcases k with _ | k
        · simp only [List.getElem?_cons_zero] at ht ⊢
          refine ⟨f, rfl, ?_⟩
          rw [← Option.some_inj.mp ht]
          refine ⟨by rw [FTree.withChildren_type, hw1],
                  by rw [FTree.withChildren_props, hw2], ?_, ?_, ?_⟩
          · intro s hs
            rw [FTree.withChildren_dom]
            exact hw3 s (by rw [← hw1, ← FTree.withChildren_type worked kids]; exact hs)
          · intro cid hcid
            rw [FTree.withChildren_hooks]
            exact hw4 cid (by rw [← hw1, ← FTree.withChildren_type worked kids]; exact hcid)
          · intro d0 hd0
            rw [FTree.withChildren_dom]
            exact hw5 d0 hd0
        · simp only [List.getElem?_cons_succ] at ht ⊢
          exact hget' k t ht

/-- The second-pass fiber before its children are attached. -/
def secondTop (t : FTree) (tg : Option ETag) : FTree :=
  .mk t.type t.props t.dom (some t) tg
    (match t.type with
     | .comp _ => t.hooks
     | .str _ => none) []

theorem secondTree_eq_top_chain (t : FTree) (tg : Option ETag) :
    secondTree t tg = (secondTop t tg).withChildren (secondChain t.children) := by
  cases t
  rfl

theorem secondChain_eq_map (ts : List FTree) :
    secondChain ts = ts.map (fun t => secondTree t (some .update)) := by
  induction ts with
  | nil => rfl
  | cons t ts ih => simp [secondChain, ih]

/-- Re-working a just-built fiber against the unchanged description: the
body replay returns the same element and hooks, reconciliation remounts
every built child as an `UPDATE`, no host node is created and no deletion
recorded. -/
theorem unitWork_second (env : CompEnv) (f : FTree) (pdom : Nat)
    (doms : List DomNode) (worked : FTree) (kids0 : List FTree)
    (dels1 : List (Nat × FTree)) (doms1 : List DomNode)
    (hu : unitWork env f pdom doms = .ok (worked, kids0, dels1, doms1))
    (kids : List FTree)
    (hlen : kids.length = kids0.length)
    (hmatch : ∀ (k : Nat) (t : FTree), kids[k]? = some t →
        ∃ p, kids0[k]? = some p ∧ t.type = p.type ∧ t.props = p.props)
    (tg : Option ETag) (pdom₂ : Nat) (d : List DomNode) :
    unitWork env (remount (worked.withChildren kids) tg) pdom₂ d =
      .ok (secondTop (worked.withChildren kids) tg,
           kids.map (fun o => remount o (some .update)), [], d) := by
  rcases f with ⟨fty, fp, fd, fa, fe, fh, fc⟩
  rcases fty with s | cid
  · -- host fiber
    simp only [unitWork, FTree.type] at hu
    split at hu
    · cases hu
    · rename_i chain rawDels hrc
      simp only [FTree.props, FTree.alternate] at hrc
      simp only [Except.ok.injEq, Prod.mk.injEq] at hu
      obtain ⟨hw, hk0, -, -⟩ := hu
      subst hw
      subst hk0
      obtain ⟨m, hm1, hm2, hsome, hnone, hclen, hcget⟩ :=
        reconcileChildren_ok_decomp _ _ _ _ hrc
      have hrb2 := reconcileChildren_rebuild fp.children kids m hm1 hm2
        hsome hnone (by rw [hlen, hclen])
        (by
          intro k el o hel hko
          obtain ⟨p, hp, hty, hpr⟩ := hmatch k o hko
          have hkm : k < m := by
            by_contra hge
            rw [hnone k (by omega)] at hel
            cases hel
          rw [hcget k hkm, hel] at hp
          obtain ⟨hty2, hpr2⟩ := classifyNew_some_shape _ _ _ hp
          exact ⟨hty.trans hty2, hpr.trans hpr2⟩)
      simp only [unitWork, remount, FTree.withChildren, FTree.type,
        FTree.props, FTree.dom, FTree.alternate, FTree.hooks,
        FTree.effectTag, FTree.children, Option.map_some, Option.map_some',
        Option.getD_some]
      rw [hrb2]
      rfl
  · -- function fiber
    simp only [unitWork, FTree.type] at hu
    split at hu
    · cases hu
    · rename_i el ctx hrb
      split at hu
      · cases hu
      · rename_i chain rawDels hrc
        simp only [FTree.props, FTree.alternate] at hrc
        simp only [FTree.props, FTree.alternate, freshHookCtx] at hrb
        simp only [Except.ok.injEq, Prod.mk.injEq] at hu
        obtain ⟨hw, hk0, -, -⟩ := hu
        subst hw
        subst hk0
        -- body stability: the replay returns the same element and hooks
        obtain ⟨e0, new, hshape⟩ := runBody_shape (env cid fp)
          (fa.bind FTree.hooks) 0 []
        rw [hshape] at hrb
        simp only [Except.ok.injEq, Prod.mk.injEq] at hrb
        obtain ⟨he0, hctx⟩ := hrb
        have hch : ctx.hooks = new := by rw [← hctx]; rfl
        have hreplay := runBody_replay (env cid fp) (fa.bind FTree.hooks) 0
          [] e0 new hshape new []
          (by
            intro j x hj
            simpa using hj)
        simp only [List.nil_append, Nat.zero_add] at hreplay
        obtain ⟨m, hm1, hm2, hsome, hnone, hclen, hcget⟩ :=
          reconcileChildren_ok_decomp _ _ _ _ hrc
        simp only [List.length_cons, List.length_nil] at hm1 hm2
        have hm1' : m = 1 := by
          rcases Nat.lt_or_ge m 1 with hm | hm
          · exfalso
            have := hnone 0 (by omega)
            simp [optJoin_some] at this
          · omega
        subst hm1'
        have hrb2 := reconcileChildren_rebuild [some el] kids 1 (by simp)
          (by simp) hsome hnone (by rw [hlen, hclen])
          (by
            intro k el' o hel hko
            obtain ⟨p, hp, hty, hpr⟩ := hmatch k o hko
            have hkm : k < 1 := by
              by_contra hge
              rw [hnone k (by omega)] at hel
              cases hel
            rw [hcget k hkm, hel] at hp
            obtain ⟨hty2, hpr2⟩ := classifyNew_some_shape _ _ _ hp
            exact ⟨hty.trans hty2, hpr.trans hpr2⟩)
        simp only [unitWork, remount, FTree.withChildren, FTree.type,
          FTree.props, FTree.dom, FTree.alternate, FTree.hooks,
          FTree.effectTag, FTree.children, Option.some_bind,
          Option.map_some, Option.map_some', Option.getD_some,
          freshHookCtx, hch]
        rw [← he0] at hrb2
        simp only [hreplay, hrb2]
        simp only [secondTop, remount, FTree.type, FTree.props, FTree.dom,
          FTree.hooks, FTree.withChildren, hch, he0, Nat.zero_add,
          List.nil_append, List.map_nil]

/-- The pending chain the second pass starts from: every built fiber
remounted with its tag. -/
def remounts (ts : List FTree) (tgs : List (Option ETag)) : List FTree :=
  (ts.zip tgs).map (fun pr => remount pr.1 pr.2)

/-- The chain the second pass completes. -/
def secondTrees (ts : List FTree) (tgs : List (Option ETag)) : List FTree :=
  (ts.zip tgs).map (fun pr => secondTree pr.1 pr.2)

theorem zip_replicate_map {α β : Type} (l : List α) (c : β) :
    l.zip (List.replicate l.length c) = l.map (fun x => (x, c)) := by
  induction l with
  | nil => rfl
  | cons a as ih => simp [List.replicate, ih]

theorem remounts_replicate (ts : List FTree) :
    remounts ts (List.replicate ts.length (some .update)) =
      ts.map (fun o => remount o (some .update)) := by
  unfold remounts
  rw [zip_replicate_map, List.map_map]
  rfl

theorem secondTrees_replicate (ts : List FTree) :
    secondTrees ts (List.replicate ts.length (some .update)) =
      ts.map (fun t => secondTree t (some .update)) := by
  unfold secondTrees
  rw [zip_replicate_map, List.map_map]
  rfl

/-- Re-running a completed pass against the unchanged descriptions settles
everything as an in-place remount: same fibers (up to `alternate` and
effect tags), no deletion records, and an untouched host arena — whatever
arena and resolved parent the second pass is given. -/
theorem buildFibers_idem (env : CompEnv) :
    ∀ (fuel : Nat) (pend : List FTree) (pdom : Nat) (doms : List DomNode)
      (ts : List FTree) (dels : List (Nat × FTree)) (doms₁ : List DomNode),
      buildFibers env fuel pend pdom doms = .ok (ts, dels, doms₁) →
      ∀ (tgs : List (Option ETag)) (pdom₂ : Nat) (d : List DomNode),
        tgs.length = ts.length →
        buildFibers env fuel (remounts ts tgs) pdom₂ d =
          .ok (secondTrees ts tgs, [], d) := by
  intro fuel
  induction fuel with
  | zero => intro pend pdom doms ts dels doms₁ h; cases h
  | succ fuel ih =>
    intro pend pdom doms ts dels doms₁ h tgs pdom₂ d htgs
    rcases pend with _ | ⟨f, fs⟩
    · simp only [buildFibers, Except.ok.injEq, Prod.mk.injEq] at h
      obtain ⟨h1, -, -⟩ := h
      subst h1
      have htgs0 : tgs = [] := List.length_eq_zero.mp (by simpa using htgs)
      subst htgs0
      simp [remounts, secondTrees, buildFibers]
    · rw [buildFibers_cons] at h
      rcases hu : unitWork env f pdom doms
          with e | ⟨worked, kids0, dels1, doms1⟩ <;> simp only [hu] at h
      · cases h
      rcases hk : buildFibers env fuel kids0 (worked.dom.getD pdom) doms1
          with e | ⟨kids, dels2, doms2⟩ <;> simp only [hk] at h
      · cases h
      rcases hsib : buildFibers env fuel fs pdom doms2
          with e | ⟨ts', dels3, doms3⟩ <;> simp only [hsib] at h
      · cases h
      simp only [Except.ok.injEq, Prod.mk.injEq] at h
      obtain ⟨hts, -, hdoms⟩ := h
      subst hts
      rcases tgs with _ | ⟨tg, tgs'⟩
      · simp at htgs
      have htgs' : tgs'.length = ts'.length := by simpa using htgs
      obtain ⟨hklen, hkget⟩ := buildFibers_shape env fuel kids0
        (worked.dom.getD pdom) doms1 kids dels2 doms2 hk
      have hw2 := unitWork_second env f pdom doms worked kids0 dels1 doms1
        hu kids hklen
        (by
          intro k t ht
          obtain ⟨p, hp, h1, h2, -, -, -⟩ := hkget k t ht
          exact ⟨p, hp, h1, h2⟩)
        tg pdom₂ d
      have hrem : remounts (worked.withChildren kids :: ts') (tg :: tgs') =
          remount (worked.withChildren kids) tg :: remounts ts' tgs' := by
        simp [remounts]
      rw [hrem, buildFibers_cons]
      simp only [hw2]
      have hkids2 := ih kids0 (worked.dom.getD pdom) doms1 kids dels2 doms2
        hk (List.replicate kids.length (some .update))
        ((secondTop (worked.withChildren kids) tg).dom.getD pdom₂) d
        (by simp)
      rw [remounts_replicate] at hkids2
      simp only [hkids2]
      have hsib2 := ih fs pdom doms2 ts' dels3 doms3 hsib tgs' pdom₂ d htgs'
      simp only [hsib2]
      have hassemble : (secondTop (worked.withChildren kids) tg).withChildren
          (secondTrees kids (List.replicate kids.length (some .update))) =
          secondTree (worked.withChildren kids) tg := by
        rw [secondTrees_replicate, secondTree_eq_top_chain,
          FTree.withChildren_children, secondChain_eq_map]
      rw [hassemble]
      simp [secondTrees]

theorem secondTree_effectTag (t : FTree) (tg : Option ETag) :
    (secondTree t tg).effectTag = tg := by cases t; rfl

theorem secondTree_dom (t : FTree) (tg : Option ETag) :
    (secondTree t tg).dom = t.dom := by cases t; rfl

theorem secondTree_type (t : FTree) (tg : Option ETag) :
    (secondTree t tg).type = t.type := by cases t; rfl

theorem secondTree_props (t : FTree) (tg : Option ETag) :
    (secondTree t tg).props = t.props := by cases t; rfl

theorem secondTree_alternate (t : FTree) (tg : Option ETag) :
    (secondTree t tg).alternate = some t := by cases t; rfl

theorem secondTree_children (t : FTree) (tg : Option ETag) :
    (secondTree t tg).children = secondChain t.children := by cases t; rfl

theorem isGone_self (ps : List (String × JsValue)) (k : String) :
    isGone ps ps k = false := by
  simp [isGone]

theorem isNew_self (ps : List (String × JsValue)) (k : String) :
    isNew ps ps k = false := by
  simp [isNew]

/-- Diffing unchanged attributes mutates nothing: both removal filters and
both addition filters reject every key. -/
theorem updateDom_self (d : DomNode) (ps : List (String × JsValue)) :
    updateDom d ps ps = d := by
  have h1 : ∀ (l : List String), l.filter (isGone ps ps) = [] := by
    intro l
    apply List.filter_eq_nil_iff.mpr
    intro a _
    simp [isGone_self]
  have h2 : ∀ (l : List String), l.filter (isNew ps ps) = [] := by
    intro l
    apply List.filter_eq_nil_iff.mpr
    intro a _
    simp [isNew_self]
  simp only [updateDom, h1, h2, List.foldl_nil]

theorem modifyNode_self (doms : List DomNode) (i : Nat)
    (g : DomNode → DomNode) (h : ∀ n, g n = n) :
    modifyNode doms i g = doms := by
  unfold modifyNode
  rcases hx : doms[i]? with _ | dd
  · rfl
  · show doms.set i (g dd) = doms
    rw [h dd]
    apply List.ext_getElem?
    intro j
    rcases Nat.decEq j i with hji | hji
    · rw [List.getElem?_set_ne (by omega)]
    · subst hji
      rw [List.getElem?_set_self (by
        exact (List.getElem?_eq_some.mp hx).1)]
      exact hx.symm

theorem commitFibers_nil (fuel : Nat) (doms : List DomNode) :
    commitFibers fuel [] doms = doms := by
  cases fuel <;> rfl

/-- Committing a chain of second-pass `UPDATE` fibers mutates no host node:
every diff is between identical attribute lists. -/
theorem commitFibers_second_noop :
    ∀ (fuel : Nat) (entries : List (Nat × FTree)) (doms : List DomNode),
      (∀ pr ∈ entries, ∃ t, pr.2 = secondTree t (some .update)) →
      commitFibers fuel entries doms = doms := by
  intro fuel
  induction fuel with
  | zero => intro entries doms _; rfl
  | succ fuel ih =>
    intro entries doms hsec
    rcases entries with _ | ⟨⟨pd, f⟩, rest⟩
    · rfl
    obtain ⟨t, hf⟩ := hsec (pd, f) (by simp)
    simp only at hf
    subst hf
    show commitFibers (fuel + 1) ((pd, secondTree t (some .update)) :: rest)
        doms = doms
    rw [commitFibers]
    rw [secondTree_effectTag]
    have hnomut :
        (match some ETag.update, (secondTree t (some .update)).dom with
          | some .placement, some d => appendChild doms pd d
          | some .update, some d =>
            match (secondTree t (some .update)).alternate with
            | some alt =>
                modifyNode doms d (fun n =>
                  updateDom n alt.props.attrs
                    (secondTree t (some .update)).props.attrs)
            | none => doms
          | _, _ => doms) = doms := by
      rcases hd : (secondTree t (some .update)).dom with _ | d0
      · rfl
      · rw [secondTree_alternate]
        apply modifyNode_self
        intro n
        rw [secondTree_props]
        exact updateDom_self n t.props.attrs
    rw [hnomut]
    apply ih
    intro pr hpr
    rcases List.mem_append.mp hpr with hmem | hmem
    · obtain ⟨c, hc, hceq⟩ := List.mem_map.mp hmem
      rw [secondTree_children, secondChain_eq_map] at hc
      obtain ⟨c0, -, hc0⟩ := List.mem_map.mp hc
      exact ⟨c0, by rw [← hceq, ← hc0]⟩
    · exact hsec pr (by simp [hmem])

/-- A fiber together with everything reachable from it through child
chains. -/
inductive Subfiber : FTree → FTree → Prop
  | refl (t : FTree) : Subfiber t t
  | child (u c t : FTree) : c ∈ t.children → Subfiber u c → Subfiber u t

/-- Everything inside a second-pass subtree is a second-pass fiber, and
below the top it carries the `UPDATE` tag. -/
theorem subfiber_second :
    ∀ (u v : FTree), Subfiber u v →
      ∀ (t : FTree) (tg : Option ETag), v = secondTree t tg →
        u = secondTree t tg ∨ ∃ t2, u = secondTree t2 (some .update) := by
  intro u v hsub
  induction hsub with
  | refl =>
    intro t tg hv
    exact .inl hv
  | child c t0 hmem hs ih =>
    intro t tg hv
    subst hv
    rw [secondTree_children, secondChain_eq_map] at hmem
    obtain ⟨c0, hc0mem, hc0⟩ := List.mem_map.mp hmem
    rcases ih c0 (some .update) hc0.symm with h1 | ⟨t2, h2⟩
    · exact .inr ⟨c0, h1⟩
    · exact .inr ⟨t2, h2⟩

set_option maxHeartbeats 1000000 in
/-- **C4.** Rendering the same description tree twice in a row into the
same container is idempotent: a completed first pass makes the second pass
settle every fiber as an in-place remount (result `secondTree t1 none`)
with an empty deletion set and an untouched arena; every fiber of the
second tree is tagged `UPDATE` except the untagged root — so zero
`PLACEMENT` and zero `DELETION` — and matches its `alternate` in kind,
attributes and host node; committing the second tree mutates no host
node. -/
theorem render_idempotent (env : CompEnv) (fuel : Nat) (element : Element)
    (cid : Nat) (old : Option FTree) (doms : List DomNode) (t1 : FTree)
    (dels1 : List (Nat × FTree)) (doms1 : List DomNode)
    (h : renderBuild env fuel element cid old doms = .ok ([t1], dels1, doms1)) :
    (∀ d, renderBuild env fuel element cid (some t1) d =
        .ok ([secondTree t1 none], [], d)) ∧
    (∀ u, Subfiber u (secondTree t1 none) →
        (u.effectTag = none ∨ u.effectTag = some .update) ∧
        ∀ a, u.alternate = some a →
          u.type = a.type ∧ u.props = a.props ∧ u.dom = a.dom) ∧
    (∀ d, commitRootTree (secondTree t1 none) [] d = d) := by
  have h' : buildFibers env fuel
      [.mk (.str "ROOT") (.mk [] [some element]) (some cid) old none none []]
      cid doms = .ok ([t1], dels1, doms1) := h
  obtain ⟨-, hget⟩ := buildFibers_shape env fuel _ cid doms [t1] dels1 doms1 h'
  obtain ⟨p, hp, hty, hpr, -, -, hdm⟩ := hget 0 t1 rfl
  have hpeq : FTree.mk (.str "ROOT") (.mk [] [some element]) (some cid) old
      none none [] = p := by
    simpa using hp
  subst hpeq
  have hdom : t1.dom = some cid := hdm cid rfl
  have hroot : FTree.mk (.str "ROOT") (.mk [] [some element]) (some cid)
      (some t1) none none [] = remount t1 none := by
    show _ = FTree.mk t1.type t1.props t1.dom (some t1) none none []
    rw [hty, hpr, hdom]
    rfl
  refine ⟨?_, ?_, ?_⟩
  · intro d
    have hidem := buildFibers_idem env fuel _ cid doms [t1] dels1 doms1 h'
      [none] cid d (by simp)
    have hrem : remounts [t1] [none] = [remount t1 none] := by
      simp [remounts]
    have hsec : secondTrees [t1] [none] = [secondTree t1 none] := by
      simp [secondTrees]
    rw [hrem, hsec] at hidem
    show buildFibers env fuel
      [.mk (.str "ROOT") (.mk [] [some element]) (some cid) (some t1)
        none none []] cid d = _
    rw [hroot]
    exact hidem
  · intro u hsub
    rcases subfiber_second u _ hsub t1 none rfl with h1 | ⟨t2, h2⟩
    · subst h1
      refine ⟨.inl (secondTree_effectTag t1 none), ?_⟩
      intro a ha
      rw [secondTree_alternate] at ha
      obtain rfl := Option.some_inj.mp ha
      exact ⟨secondTree_type t1 none, secondTree_props t1 none,
        secondTree_dom t1 none⟩
    · subst h2
      refine ⟨.inr (secondTree_effectTag t2 (some .update)), ?_⟩
      intro a ha
      rw [secondTree_alternate] at ha
      obtain rfl := Option.some_inj.mp ha
      exact ⟨secondTree_type t2 (some .update), secondTree_props t2 (some .update),
        secondTree_dom t2 (some .update)⟩
  · intro d
    show commitFibers _ ((secondTree t1 none).children.map
        (fun c => ((secondTree t1 none).dom.getD 0, c)))
        (commitFibers _ [] d) = d
    rw [commitFibers_nil]
    apply commitFibers_second_noop
    intro pr hpr
    rw [secondTree_children, secondChain_eq_map] at hpr
    obtain ⟨c, hc, hceq⟩ := List.mem_map.mp hpr
    obtain ⟨c0, -, hc0⟩ := List.mem_map.mp hc
    refine ⟨c0, ?_⟩
    rw [← hceq]
    exact hc0.symm

def wEnv : CompEnv := fun _ _ => .ret (createTextElement (.str "x"))

def wElem : Element :=
  createElement (.str "div") [("id", .str "app")] [.scalar (.str "hi")]

def wDoms : List DomNode :=
  [{ isText := false, tag := "root", props := [], listeners := [],
     children := [] }]

def wFirst := renderBuild wEnv 10 wElem 0 none wDoms

def wT1 : FTree :=
  match wFirst with
  | .ok (t :: _, _, _) => t
  | _ => .mk (.str "") (.mk [] []) none none none none []

def wDoms1 : List DomNode :=
  match wFirst with
  | .ok (_, _, d) => d
  | _ => []

theorem render_idempotent_witness :
    renderBuild wEnv 10 wElem 0 none wDoms = .ok ([wT1], [], wDoms1) ∧
    renderBuild wEnv 10 wElem 0 (some wT1) wDoms1 =
      .ok ([secondTree wT1 none], [], wDoms1) ∧
    commitRootTree (secondTree wT1 none) [] wDoms1 = wDoms1 :=
  ⟨rfl,
   (render_idempotent wEnv 10 wElem 0 none wDoms wT1 [] wDoms1 rfl).1 wDoms1,
   (render_idempotent wEnv 10 wElem 0 none wDoms wT1 [] wDoms1 rfl).2.2 wDoms1⟩

/-- An `UPDATE`-tagged member of the classified chain reuses its old fiber's
host node: its `alternate` is the old fiber and its `dom` the old fiber's
`dom` (the `PLACEMENT` fibers, the only other members, carry a different
tag). -/
theorem mem_classChain_update_dom (olds : List FTree)
    (elems : List (Option Element)) (f : FTree) (hf : f ∈ classChain olds elems)
    (htag : f.effectTag = some .update) :
    ∃ o, f.alternate = some o ∧ f.dom = o.dom := by
  unfold classChain at hf
  obtain ⟨k, -, hk⟩ := List.mem_filterMap.mp hf
  rcases hko : olds[k]? with _ | o <;> rcases hke : elems[k]?.join with _ | el <;>
    simp only [classifyNew, hko, hke] at hk
  · exact absurd hk (by simp)
  · rw [← Option.some_inj.mp hk] at htag
    exact absurd htag (by simp [placementFiberOf, FTree.effectTag])
  · exact absurd hk (by simp)
  · by_cases hty : o.type = el.type <;> simp only [hty, if_true, if_false] at hk
    · refine ⟨o, ?_, ?_⟩ <;> rw [← Option.some_inj.mp hk] <;> rfl
    · rw [← Option.some_inj.mp hk] at htag
      exact absurd htag (by simp [placementFiberOf, FTree.effectTag])

/-- The observable identity of a host node: its kind, tag and attached
child list — everything `updateDom` (a property/listener diff on the same
object) leaves untouched. -/
def domShape (n : DomNode) : Bool × String × List Nat :=
  (n.isText, n.tag, n.children)

theorem updateDom_domShape (d : DomNode) (po pn : List (String × JsValue)) :
    domShape (updateDom d po pn) = domShape d := rfl

theorem modifyNode_length (doms : List DomNode) (i : Nat)
    (g : DomNode → DomNode) : (modifyNode doms i g).length = doms.length := by
  unfold modifyNode
  rcases doms[i]? with _ | dd
  · rfl
  · simp

theorem modifyNode_domShape (doms : List DomNode) (i : Nat)
    (g : DomNode → DomNode) (hg : ∀ n, domShape (g n) = domShape n) (j : Nat) :
    ((modifyNode doms i g)[j]?).map domShape = (doms[j]?).map domShape := by
  unfold modifyNode
  rcases hx : doms[i]? with _ | dd
  · rfl
  · show ((doms.set i (g dd))[j]?).map domShape = _
    rcases Nat.decEq j i with hji | hji
    · rw [List.getElem?_set_ne (by omega)]
    · subst hji
      rw [List.getElem?_set_self (by
        exact (List.getElem?_eq_some.mp hx).1)]
      rw [hx]
      simp only [Option.map_some']
      rw [hg dd]

mutual
/-- Whether a subtree carries only `UPDATE` (or no) effect tags — the shape
the second of two identical renders produces. -/
def FTree.updOnly : FTree → Bool
  | .mk _ _ _ _ e _ c =>
    (match e with
     | some .update => true
     | none => true
     | _ => false) && chainUpdOnly c
/-- `updOnly` over a child chain. -/
def chainUpdOnly : List FTree → Bool
  | [] => true
  | t :: ts => t.updOnly && chainUpdOnly ts
end

theorem chainUpdOnly_mem (ts : List FTree) (h : chainUpdOnly ts = true) :
    ∀ t ∈ ts, FTree.updOnly t = true := by
  induction ts with
  | nil => intro t ht; simp at ht
  | cons a as ih =>
    intro t ht
    rw [chainUpdOnly, Bool.and_eq_true] at h
    rcases List.mem_cons.mp ht with h1 | h1
    · subst h1; exact h.1
    · exact ih h.2 t h1

/-- Committing entries whose subtrees carry only `UPDATE` (or no) tags never
creates, removes or re-parents a host node: the arena keeps its length and
every node keeps its kind, tag and child list — each `UPDATE` is an in-place
property/listener diff on the very node the fiber already owns. -/
theorem commitFibers_updOnly_shape :
    ∀ (fuel : Nat) (entries : List (Nat × FTree)) (doms : List DomNode),
      (∀ pr ∈ entries, FTree.updOnly pr.2 = true) →
      (commitFibers fuel entries doms).length = doms.length ∧
      ∀ (j : Nat), ((commitFibers fuel entries doms)[j]?).map domShape =
        (doms[j]?).map domShape := by
  intro fuel
  induction fuel with
  | zero => intro entries doms _; exact ⟨rfl, fun j => rfl⟩
  | succ fuel ih =>
    intro entries doms hupd
    rcases entries with _ | ⟨⟨pd, f⟩, rest⟩
    · exact ⟨rfl, fun j => rfl⟩
    have hf := hupd (pd, f) (by simp)
    simp only at hf
    rcases f with ⟨ty, p, d, a, e, h, c⟩
    have hparts : (e = none ∨ e = some .update) ∧ chainUpdOnly c = true := by
      rcases e with _ | tag
      · simp only [FTree.updOnly, Bool.true_and] at hf
        exact ⟨.inl rfl, hf⟩
      · rcases tag with _ | _ | _
        · simp [FTree.updOnly] at hf
        · simp only [FTree.updOnly, Bool.true_and] at hf
          exact ⟨.inr rfl, hf⟩
        · simp [FTree.updOnly] at hf
    obtain ⟨he, hc⟩ := hparts
    have hrest : ∀ pr ∈ (FTree.mk ty p d a e h c).children.map
        (fun c0 => ((FTree.mk ty p d a e h c).dom.getD pd, c0)) ++ rest,
        FTree.updOnly pr.2 = true := by
      intro pr hpr
      rcases List.mem_append.mp hpr with h1 | h1
      · obtain ⟨c0, hc0, hceq⟩ := List.mem_map.mp h1
        rw [← hceq]
        exact chainUpdOnly_mem c hc c0 (by simpa [FTree.children] using hc0)
      · exact hupd pr (List.mem_cons_of_mem _ h1)
    rcases he with he | he
    · subst he
      exact ih _ doms hrest
    · subst he
      rcases d with _ | d0
      · exact ih _ doms hrest
      · rcases a with _ | alt
        · exact ih _ doms hrest
        · obtain ⟨hl, hsh⟩ := ih ((FTree.mk ty p (some d0) (some alt)
            (some .update) h c).children.map
              (fun c0 => ((FTree.mk ty p (some d0) (some alt)
                (some .update) h c).dom.getD pd, c0)) ++ rest)
            (modifyNode doms d0
              (fun n => updateDom n alt.props.attrs p.attrs)) hrest
          refine ⟨?_, ?_⟩
          · show (commitFibers (fuel + 1)
              ((pd, FTree.mk ty p (some d0) (some alt)
                (some .update) h c) :: rest) doms).length = doms.length
            rw [commitFibers]
            show (commitFibers fuel _ (modifyNode doms d0
              (fun n => updateDom n alt.props.attrs p.attrs))).length = _
            rw [hl, modifyNode_length]
          · intro j
            show ((commitFibers (fuel + 1)
              ((pd, FTree.mk ty p (some d0) (some alt)
                (some .update) h c) :: rest) doms)[j]?).map domShape = _
            rw [commitFibers]
            show ((commitFibers fuel _ (modifyNode doms d0
              (fun n => updateDom n alt.props.attrs p.attrs)))[j]?).map
                domShape = _
            rw [hsh j, modifyNode_domShape]
            intro n
            exact updateDom_domShape n _ _

/-- **C8.** Host-node identity is preserved across updates.  In any
completed reconciliation, every chain fiber tagged `UPDATE` carries
`alternate = some o` for the old fiber `o` and the very same `dom` id as
`o` (the same host object, not a copy).  And committing a generation whose
subtrees carry only `UPDATE` (or no) tags mutates the owned nodes in place:
the arena keeps its length and every node keeps its kind, tag and child
list — only properties and listeners are diffed — so re-rendering with
changed attributes leaves all host-node identities intact. -/
theorem update_preserves_host_node (olds : List FTree)
    (elems : List (Option Element)) (chain dels : List FTree)
    (h : reconcileChildren olds elems = .ok (chain, dels))
    (fuel : Nat) (entries : List (Nat × FTree)) (doms : List DomNode)
    (hupd : ∀ pr ∈ entries, FTree.updOnly pr.2 = true) :
    (∀ t ∈ chain, t.effectTag = some .update →
       ∃ o, t.alternate = some o ∧ t.dom = o.dom) ∧
    (commitFibers fuel entries doms).length = doms.length ∧
    (∀ (j : Nat), ((commitFibers fuel entries doms)[j]?).map domShape =
       (doms[j]?).map domShape) := by
  obtain ⟨hch, -⟩ := reconcileChildrenAux_ok_char
    (elems.length + olds.length) elems olds true true chain dels h
  obtain ⟨hl, hsh⟩ := commitFibers_updOnly_shape fuel entries doms hupd
  refine ⟨?_, hl, hsh⟩
  intro t ht htag
  subst hch
  exact mem_classChain_update_dom olds elems t ht htag

def w8Old : FTree :=
  .mk (.str "TEXT_ELEMENT") (.mk [("nodeValue", .str "hi")] []) (some 2)
    none none none []

def w8Upd : FTree := updateFiberOf (createTextElement (.str "bye")) w8Old

theorem update_preserves_host_node_witness :
    (∃ o, w8Upd.alternate = some o ∧ w8Upd.dom = o.dom) ∧
    (commitFibers 5 [(1, w8Upd)] wDoms).length = wDoms.length ∧
    ((commitFibers 5 [(1, w8Upd)] wDoms)[0]?).map domShape =
      (wDoms[0]?).map domShape :=
  ⟨(update_preserves_host_node [w8Old] [some (createTextElement (.str "bye"))]
      [w8Upd] [] rfl 5 [(1, w8Upd)] wDoms
      (by intro pr hpr; simp only [List.mem_singleton] at hpr; subst hpr; rfl)).1
      w8Upd (List.mem_singleton.mpr rfl) rfl,
   (update_preserves_host_node [w8Old] [some (createTextElement (.str "bye"))]
      [w8Upd] [] rfl 5 [(1, w8Upd)] wDoms
      (by intro pr hpr; simp only [List.mem_singleton] at hpr; subst hpr; rfl)).2.1,
   (update_preserves_host_node [w8Old] [some (createTextElement (.str "bye"))]
      [w8Upd] [] rfl 5 [(1, w8Upd)] wDoms
      (by intro pr hpr; simp only [List.mem_singleton] at hpr; subst hpr; rfl)).2.2
      0⟩

/-! ## Depth-first navigation of `performNextUnitOfWork` -/

/-- The three links of one fiber as the source's `fiber.parent`,
`fiber.child`, `fiber.sibling` references, with fibers held in an arena and
references as indices. -/
structure FiberLinks where
  parent : Option Nat
  child : Option Nat
  sibling : Option Nat
  deriving DecidableEq, Repr

/-- The `while (nextFiber)` walk of `performNextUnitOfWork`: return
`nextFiber.sibling` if set, else continue from `nextFiber.parent`; falling
off the root (`nextFiber` null) returns `undefined` (`none`).  The fuel
bounds the loop for the embedding; with parent links that decrease the
index, `arena.length + 1` units always suffice. -/
def walkUp (arena : List FiberLinks) : Nat → Option Nat → Option Nat
  | _, none => none
  | 0, some _ => none
  | fuel + 1, some i =>
    match arena[i]? with
    | none => none
    | some fl =>
      match fl.sibling with
      | some s => some s
      | none => walkUp arena fuel fl.parent

/-- `performNextUnitOfWork`'s return value (the navigation after the unit's
own work, which `unitWork` embeds, has attached the child chain): the
fiber's `child` if one exists, else the upward sibling walk starting at the
fiber itself. -/
def nextUnitIdx (arena : List FiberLinks) (i : Nat) : Option Nat :=
  match arena[i]? with
  | none => none
  | some fl =>
    match fl.child with
    | some c => some c
    | none => walkUp arena (arena.length + 1) (some i)

/-- The chain of ancestors-or-self the upward walk visits (fuel-truncated;
ample fuel reaches the root). -/
def parentChain (arena : List FiberLinks) : Nat → Nat → List Nat
  | 0, _ => []
  | fuel + 1, i =>
    i :: (match arena[i]? with
          | none => []
          | some fl =>
            match fl.parent with
            | some p => parentChain arena fuel p
            | none => [])

/-- `nextFiber.sibling` read through the arena. -/
def sibOf (arena : List FiberLinks) (j : Nat) : Option Nat :=
  (arena[j]?).bind FiberLinks.sibling

/-- Every `parent` link points strictly down the arena (parents are
allocated before their children), so the upward walk terminates at a
root. -/
def parentDec (arena : List FiberLinks) : Bool :=
  (List.range arena.length).all (fun j =>
    ((arena[j]?).bind FiberLinks.parent).all (fun p => p < j))

theorem parentDec_lt (arena : List FiberLinks) (h : parentDec arena = true)
    (j : Nat) (fl : FiberLinks) (hj : arena[j]? = some fl)
    (p : Nat) (hp : fl.parent = some p) : p < j := by
  rw [parentDec, List.all_eq_true] at h
  have hjlen : j < arena.length := (List.getElem?_eq_some.mp hj).1
  have h2 := h j (List.mem_range.mpr hjlen)
  rw [hj] at h2
  simp only [Option.some_bind, hp, Option.all_some] at h2
  exact of_decide_eq_true h2

/-- The upward walk returns exactly the first sibling found along the
ancestors-or-self chain. -/
theorem walkUp_eq_findSome (arena : List FiberLinks) :
    ∀ (fuel i : Nat),
      walkUp arena fuel (some i) =
        (parentChain arena fuel i).findSome? (sibOf arena) := by
  intro fuel
  induction fuel with
  | zero => intro i; rfl
  | succ fuel ih =>
    intro i
    rcases hx : arena[i]? with _ | fl
    · simp [walkUp, parentChain, hx, List.findSome?, sibOf]
    · rcases hs : fl.sibling with _ | s
      · rcases hpp : fl.parent with _ | p
        · simp [walkUp, parentChain, hx, hs, hpp, List.findSome?, sibOf]
        · simp only [walkUp, parentChain, hx, hs, hpp]
          rw [List.findSome?]
          simp only [sibOf, hx, Option.some_bind, hs]
          exact ih p
      · simp [walkUp, parentChain, hx, hs, List.findSome?, sibOf]

/-- With decreasing parent links, ample fuel carries the chain all the way
to a root fiber (one with no `parent`). -/
theorem parentChain_reaches_root (arena : List FiberLinks)
    (hwf : parentDec arena = true) :
    ∀ (fuel i : Nat), i < fuel → i < arena.length →
      ∃ r fr, r ∈ parentChain arena fuel i ∧ arena[r]? = some fr ∧
        fr.parent = none := by
  intro fuel
  induction fuel with
  | zero => intro i hif _; omega
  | succ fuel ih =>
    intro i hif hil
    have hx : ∃ fl, arena[i]? = some fl := by
      rcases hg : arena[i]? with _ | fl
      · rw [List.getElem?_eq_none_iff] at hg; omega
      · exact ⟨fl, rfl⟩
    obtain ⟨fl, hfl⟩ := hx
    rcases hpp : fl.parent with _ | p
    · exact ⟨i, fl, by simp [parentChain, hfl, hpp], hfl, hpp⟩
    · have hpi : p < i := parentDec_lt arena hwf i fl hfl p hpp
      obtain ⟨r, fr, hmem, hr1, hr2⟩ := ih p (by omega) (by omega)
      refine ⟨r, fr, ?_, hr1, hr2⟩
      simp only [parentChain, hfl, hpp]
      exact List.mem_cons_of_mem i hmem

/-- **C6.** `performNextUnitOfWork` returns the next unit in depth-first
resumable order.  After the unit's own work has attached its child chain
(the arena holds the post-work links), the returned unit is the fiber's
child when one exists; otherwise it is the first sibling found on the fiber
or any of its ancestors (the `while (nextFiber)` walk through `sibling`
then `parent` links); and it is `none` exactly when no
ancestor-or-self has a sibling — the walk having genuinely reached a root
fiber, which signals the pass fully explored. -/
theorem performNextUnitOfWork_dfs (arena : List FiberLinks)
    (i : Nat) (f : FiberLinks) (ha : arena[i]? = some f)
    (hwf : parentDec arena = true) :
    (∀ c, f.child = some c → nextUnitIdx arena i = some c) ∧
    (f.child = none →
      nextUnitIdx arena i =
        (parentChain arena (arena.length + 1) i).findSome? (sibOf arena) ∧
      (nextUnitIdx arena i = none ↔
        ∀ j ∈ parentChain arena (arena.length + 1) i, sibOf arena j = none) ∧
      ∃ r fr, r ∈ parentChain arena (arena.length + 1) i ∧
        arena[r]? = some fr ∧ fr.parent = none) := by
  constructor
  · intro c hc
    simp [nextUnitIdx, ha, hc]
  · intro hc
    have heq : nextUnitIdx arena i =
        (parentChain arena (arena.length + 1) i).findSome? (sibOf arena) := by
      simp only [nextUnitIdx, ha, hc]
      exact walkUp_eq_findSome arena (arena.length + 1) i
    refine ⟨heq, ?_, ?_⟩
    · rw [heq]
      exact List.findSome?_eq_none_iff
    · exact parentChain_reaches_root arena hwf (arena.length + 1) i
        (by have := (List.getElem?_eq_some.mp ha).1; omega)
        (List.getElem?_eq_some.mp ha).1

def w6Arena : List FiberLinks :=
  [{ parent := none, child := some 1, sibling := none },
   { parent := some 0, child := some 2, sibling := none },
   { parent := some 1, child := none, sibling := some 3 },
   { parent := some 1, child := none, sibling := none }]

theorem performNextUnitOfWork_dfs_witness :
    (nextUnitIdx w6Arena 3 =
      (parentChain w6Arena (w6Arena.length + 1) 3).findSome? (sibOf w6Arena) ∧
     (nextUnitIdx w6Arena 3 = none ↔
       ∀ j ∈ parentChain w6Arena (w6Arena.length + 1) 3,
         sibOf w6Arena j = none) ∧
     ∃ r fr, r ∈ parentChain w6Arena (w6Arena.length + 1) 3 ∧
       w6Arena[r]? = some fr ∧ fr.parent = none) ∧
    nextUnitIdx w6Arena 2 = some 3 :=
  ⟨(performNextUnitOfWork_dfs w6Arena 3
      { parent := some 1, child := none, sibling := none } rfl rfl).2 rfl,
   (performNextUnitOfWork_dfs w6Arena 2
      { parent := some 1, child := none, sibling := some 3 } rfl rfl).2 rfl
     |>.1⟩

/-! ## The work loop, its yield points, and the atomic commit -/

/-- `workLoop`'s interruptible phase as a step machine.  The frame list is
the depth-first worklist of `(fiber, resolved parent node)` pairs —
`nextUnitOfWork` and the sibling/ancestor continuation that
`performNextUnitOfWork` navigates — and each step performs exactly one
`performNextUnitOfWork` call: the unit's own work (`unitWork`), then the
child chain pushed ahead of the remaining frames.  The step count is the
time budget: `while (nextUnitOfWork && !shouldYield)` runs one step per
remaining budget unit and yields; deletion records accumulate off-arena
(the global `deletions` array) and touch no host node here. -/
def wlRun (env : CompEnv) : Nat → List (FTree × Nat) → List DomNode →
    Except BuildError (List (FTree × Nat) × List DomNode)
  | 0, frames, doms => .ok (frames, doms)
  | _ + 1, [], doms => .ok ([], doms)
  | n + 1, (f, pd) :: rest, doms =>
    match unitWork env f pd doms with
    | .error e => .error e
    | .ok (worked, kids, _, doms1) =>
      wlRun env n (kids.map (fun k => (k, worked.dom.getD pd)) ++ rest) doms1

/-- What a host-tree observer reads at one node: kind, tag, properties,
listeners, and the same readout of each attached child (fuel-truncated at
depth). -/
inductive Obs where
  | node (isText : Bool) (tag : String)
      (props listeners : List (String × JsValue)) (kids : List Obs)
  | dangling
  deriving Repr

/-- The observer's readout of the host tree rooted at arena id `i`. -/
def observeAt (doms : List DomNode) : Nat → Nat → Obs
  | 0, _ => .dangling
  | fuel + 1, i =>
    match doms[i]? with
    | none => .dangling
    | some n =>
      .node n.isText n.tag n.props n.listeners
        (n.children.map (observeAt doms fuel))

/-- Every attached child id points inside the arena. -/
def closedDoms (doms : List DomNode) : Bool :=
  doms.all (fun n => n.children.all (fun c => c < doms.length))

theorem unitWork_append (env : CompEnv) (f : FTree) (pd : Nat)
    (doms : List DomNode) (worked : FTree) (kids : List FTree)
    (dels : List (Nat × FTree)) (doms1 : List DomNode)
    (h : unitWork env f pd doms = .ok (worked, kids, dels, doms1)) :
    ∃ ext, doms1 = doms ++ ext := by
  rcases f with ⟨fty, fp, fd, fa, fe, fh, fc⟩
  rcases fty with s | cid
  · simp only [unitWork, FTree.type] at h
    rcases fd with _ | d0
    · split at h
      · cases h
      · simp only [Except.ok.injEq, Prod.mk.injEq] at h
        obtain ⟨-, -, -, hd⟩ := h
        exact ⟨_, hd.symm⟩
    · split at h
      · cases h
      · simp only [Except.ok.injEq, Prod.mk.injEq] at h
        obtain ⟨-, -, -, hd⟩ := h
        refine ⟨[], ?_⟩
        rw [List.append_nil, ← hd]
        rfl
  · simp only [unitWork, FTree.type] at h
    split at h
    · cases h
    · split at h
      · cases h
      · simp only [Except.ok.injEq, Prod.mk.injEq] at h
        obtain ⟨-, -, -, hd⟩ := h
        exact ⟨[], by rw [← hd, List.append_nil]⟩

/-- Each yield point of the work loop has only appended fresh (detached)
nodes to the arena. -/
theorem wlRun_append (env : CompEnv) :
    ∀ (n : Nat) (frames : List (FTree × Nat)) (doms : List DomNode)
      (frames1 : List (FTree × Nat)) (doms1 : List DomNode),
      wlRun env n frames doms = .ok (frames1, doms1) →
      ∃ ext, doms1 = doms ++ ext := by
  intro n
  induction n with
  | zero =>
    intro frames doms frames1 doms1 h
    simp only [wlRun, Except.ok.injEq, Prod.mk.injEq] at h
    exact ⟨[], by rw [← h.2, List.append_nil]⟩
  | succ n ih =>
    intro frames doms frames1 doms1 h
    rcases frames with _ | ⟨⟨f, pd⟩, rest⟩
    · simp only [wlRun, Except.ok.injEq, Prod.mk.injEq] at h
      exact ⟨[], by rw [← h.2, List.append_nil]⟩
    · simp only [wlRun] at h
      rcases hu : unitWork env f pd doms with e | ⟨worked, kids, dels, doms2⟩ <;>
        rw [hu] at h
      · cases h
      · obtain ⟨ext1, hext1⟩ := unitWork_append env f pd doms worked kids
          dels doms2 hu
        obtain ⟨ext2, hext2⟩ := ih _ doms2 frames1 doms1 h
        exact ⟨ext1 ++ ext2, by rw [hext2, hext1, List.append_assoc]⟩

/-- Appending detached nodes is invisible to an observer of the existing
tree. -/
theorem observeAt_append (doms ext : List DomNode)
    (hwf : closedDoms doms = true) :
    ∀ (fuel i : Nat), i < doms.length →
      observeAt (doms ++ ext) fuel i = observeAt doms fuel i := by
  intro fuel
  induction fuel with
  | zero => intro i _; rfl
  | succ fuel ih =>
    intro i hi
    have hx : (doms ++ ext)[i]? = doms[i]? := List.getElem?_append_left hi
    rcases hn : doms[i]? with _ | n
    · simp [observeAt, hx, hn]
    · simp only [observeAt, hx, hn, Obs.node.injEq, true_and]
      apply List.map_congr_left
      intro c hc
      apply ih
      rw [closedDoms, List.all_eq_true] at hwf
      have hmem : n ∈ doms := by
        obtain ⟨hlt, hg⟩ := List.getElem?_eq_some.mp hn
        exact hg ▸ List.getElem_mem hlt
      have h2 := hwf n hmem
      rw [List.all_eq_true] at h2
      exact of_decide_eq_true (h2 c hc)

theorem wlRun_nil (env : CompEnv) (n : Nat) (doms : List DomNode) :
    wlRun env n [] doms = .ok ([], doms) := by
  cases n <;> rfl

/-- Running `a + b` budget units is running `a`, yielding, and running `b`
from the yield point. -/
theorem wlRun_add (env : CompEnv) :
    ∀ (a b : Nat) (frames : List (FTree × Nat)) (doms : List DomNode),
      wlRun env (a + b) frames doms =
        (match wlRun env a frames doms with
         | .ok (fr, d) => wlRun env b fr d
         | .error e => .error e) := by
  intro a
  induction a with
  | zero =>
    intro b frames doms
    rw [Nat.zero_add]
    rfl
  | succ a ih =>
    intro b frames doms
    rcases frames with _ | ⟨⟨f, pd⟩, rest⟩
    · simp only [wlRun_nil]
    · have hsa : a + 1 + b = (a + b) + 1 := by omega
      rw [hsa]
      rcases hu : unitWork env f pd doms with e | ⟨worked, kids, dels, doms1⟩
      · simp only [wlRun, hu]
      · simp only [wlRun, hu]
        rw [ih]

/-- **C2.** The commit phase is a single uninterrupted pass.  At every yield
point of the interruptible work loop — however the time budget `n` cuts the
unit sequence — the arena has only been extended with fresh detached nodes,
so an observer of the committed host tree reads exactly what it read before
the generation started: no partial effect is ever visible mid-generation.
And the fully drained pre-commit state is independent of the interruption
pattern, so the one synchronous `commitRoot()` call (`commitRootTree`, which
consults no budget) applies all of the generation's deletions, placements
and updates from the same state whatever the budgets were. -/
theorem workLoop_commit_atomic (env : CompEnv) (frames : List (FTree × Nat))
    (doms : List DomNode) (hwf : closedDoms doms = true) :
    (∀ (n : Nat) (frames1 : List (FTree × Nat)) (doms1 : List DomNode),
       wlRun env n frames doms = .ok (frames1, doms1) →
       (∃ ext, doms1 = doms ++ ext) ∧
       ∀ (fuel i : Nat), i < doms.length →
         observeAt doms1 fuel i = observeAt doms fuel i) ∧
    (∀ (n m : Nat) (d1 d2 : List DomNode),
       wlRun env n frames doms = .ok ([], d1) →
       wlRun env m frames doms = .ok ([], d2) →
       d1 = d2 ∧ ∀ (root : FTree) (dels : List (Nat × FTree)),
         commitRootTree root dels d1 = commitRootTree root dels d2) := by
  have hdrain : ∀ (n m : Nat) (d1 : List DomNode),
      wlRun env n frames doms = .ok ([], d1) →
      wlRun env (n + m) frames doms = .ok ([], d1) := by
    intro n m d1 h1
    rw [wlRun_add, h1]
    show wlRun env m [] d1 = Except.ok ([], d1)
    exact wlRun_nil env m d1
  constructor
  · intro n frames1 doms1 h
    obtain ⟨ext, hext⟩ := wlRun_append env n frames doms frames1 doms1 h
    refine ⟨⟨ext, hext⟩, ?_⟩
    intro fuel i hi
    rw [hext]
    exact observeAt_append doms ext hwf fuel i hi
  · intro n m d1 d2 h1 h2
    have heq : d1 = d2 := by
      rcases Nat.le_total n m with hle | hle
      · obtain ⟨k, hk⟩ := Nat.le.dest hle
        have := hdrain n k d1 h1
        rw [hk] at this
        rw [this] at h2
        exact (Prod.mk.injEq _ _ _ _ ▸ Except.ok.inj h2).2
      · obtain ⟨k, hk⟩ := Nat.le.dest hle
        have := hdrain m k d2 h2
        rw [hk] at this
        rw [this] at h1
        exact (Prod.mk.injEq _ _ _ _ ▸ Except.ok.inj h1).2.symm
    exact ⟨heq, fun root dels => by rw [heq]⟩

def w2Frames : List (FTree × Nat) :=
  [(.mk (.str "ROOT") (.mk [] [some wElem]) (some 0) none none none [], 0)]

def w2Res := wlRun wEnv 10 w2Frames wDoms

def w2Doms : List DomNode :=
  match w2Res with
  | .ok (_, d) => d
  | _ => []

theorem workLoop_commit_atomic_witness :
    (∃ ext, w2Doms = wDoms ++ ext) ∧
    observeAt w2Doms 4 0 = observeAt wDoms 4 0 ∧
    (w2Doms = w2Doms ∧ ∀ (root : FTree) (dels : List (Nat × FTree)),
      commitRootTree root dels w2Doms = commitRootTree root dels w2Doms) :=
  ⟨((workLoop_commit_atomic wEnv w2Frames wDoms rfl).1 10 [] w2Doms rfl).1,
   ((workLoop_commit_atomic wEnv w2Frames wDoms rfl).1 10 [] w2Doms rfl).2
     4 0 (by decide),
   (workLoop_commit_atomic wEnv w2Frames wDoms rfl).2 10 10 w2Doms w2Doms
     rfl rfl⟩
